import Mathlib

/-!
# nexrender-action-encode: a verification development

A shallow embedding of `packages/nexrender-action-encode/index.js` and theorems about it.

The embedding follows the source function by function:

* `getBinary`            (index.js 8-58)   : binary resolution;
* `constructParams`      (index.js 61-159) : preset-driven parameter construction;
* `convertToMilliseconds`, `getDuration` (index.js 161-171) : the duration parser;
* `onStderrData`, `onClose` (index.js 183-203, 208-218) : the handlers of the child process;
* `execute`              (index.js 173-223) : the action as a whole.

What the source takes from the JavaScript run time is modelled next to it:

* objects are ordered property lists with the own-property-key order of ECMAScript
  (array-index keys ascending, then the other string keys in creation order);
* numbers are IEEE-754 double-precision values (only the non-negative ones occur), with
  correctly rounded arithmetic;
* strings handed to a regular expression are sequences of UTF-16 code units;
* the `path` module is a parameter (`PathModule`), with the POSIX flavour as an instance.
-/

set_option autoImplicit false

namespace Nexrender

/-! ## The `path` module -/

/-- The two functions of Node's `path` module that the action calls. -/
structure PathModule where
  /-- Models `path.isAbsolute`. -/
  isAbsolute : String → Bool
  /-- Models `path.join` with two arguments. -/
  join : String → String → String

namespace Posix

/-- Splits a path at every `/`; the result is never empty. -/
def splitOnSlash : List Char → List (List Char)
  | [] => [[]]
  | c :: cs =>
    match splitOnSlash cs with
    | [] => [[]]
    | seg :: segs => if c = '/' then [] :: seg :: segs else (c :: seg) :: segs

/-- One step of `normalizeString`: `stack` holds the kept segments, last one first. -/
def pushSegment (isAbs : Bool) (stack : List (List Char)) (seg : List Char) : List (List Char) :=
  if seg = [] ∨ seg = ['.'] then stack
  else if seg = ['.', '.'] then
    match stack with
    | top :: rest => if top = ['.', '.'] then seg :: stack else rest
    | [] => if isAbs then [] else [seg]
  else seg :: stack

/-- Models `path.posix.normalize`. -/
def normalize (p : List Char) : List Char :=
  match p with
  | [] => ['.']
  | c :: _ =>
    let isAbs : Bool := c = '/'
    let trailing : Bool := p.getLast? = some '/'
    let stack := (splitOnSlash p).foldl (pushSegment isAbs) []
    let body := List.intercalate ['/'] stack.reverse
    if body = [] then
      if isAbs then ['/'] else if trailing then ['.', '/'] else ['.']
    else
      (if isAbs then ['/'] else []) ++ body ++ (if trailing then ['/'] else [])

/-- Models `path.posix.join(a, b)`: the non-empty arguments joined by `/`, normalised. -/
def join (a b : String) : String :=
  match [a.data, b.data].filter (fun s => s ≠ []) with
  | [] => "."
  | parts => String.mk (normalize (List.intercalate ['/'] parts))

/-- Models `path.posix.isAbsolute`. -/
def isAbsolute (p : String) : Bool :=
  match p.data with
  | c :: _ => c = '/'
  | [] => false

end Posix

/-- The POSIX flavour of the `path` module. -/
def posixPath : PathModule where
  isAbsolute := Posix.isAbsolute
  join := Posix.join

/-! ## Ordinary objects with string values -/

/-- Decimal value of a character that is an ASCII digit. -/
def digitValue (c : Char) : Nat := c.toNat - 48

/-- ASCII digit test. -/
def isAsciiDigit (c : Char) : Bool := 48 ≤ c.toNat && c.toNat ≤ 57

/-- The array index a property key stands for, if any: a canonical decimal numeral
(no leading zero) below `2^32 - 1`. -/
def arrayIndex? (k : String) : Option Nat :=
  match k.data with
  | [] => none
  | c :: cs =>
    if (c :: cs).all isAsciiDigit && (c != '0' || cs.isEmpty) then
      let n := (c :: cs).foldl (fun acc d => 10 * acc + digitValue d) 0
      if n < 4294967295 then some n else none
    else none

/-- An ordinary object whose property values are strings. `elems` holds the properties
whose key is an array index, in ascending index order; `props` the other string-keyed
properties in creation order. -/
structure JsObject where
  elems : List (String × String)
  props : List (String × String)
deriving DecidableEq, Repr

namespace JsObject

/-- The object `{}`. -/
def empty : JsObject := ⟨[], []⟩

/-- Own enumerable properties in `[[OwnPropertyKeys]]` order: array indices first. -/
def entries (o : JsObject) : List (String × String) := o.elems ++ o.props

/-- Models `Object.keys`. -/
def keys (o : JsObject) : List String := o.entries.map Prod.fst

/-- Models `o[k]` for an own property. -/
def get? (o : JsObject) (k : String) : Option String := o.entries.lookup k

/-- Writes a named property: an existing one keeps its place, a new one goes last. -/
def upsert (k v : String) : List (String × String) → List (String × String)
  | [] => [(k, v)]
  | (k', v') :: rest => if k' = k then (k, v) :: rest else (k', v') :: upsert k v rest

/-- Writes an indexed property: an existing one keeps its place, a new one is placed by
ascending index. -/
def insertElem (k v : String) : List (String × String) → List (String × String)
  | [] => [(k, v)]
  | (k', v') :: rest =>
    if k' = k then (k, v) :: rest
    else if (arrayIndex? k).getD 0 < (arrayIndex? k').getD 0 then (k, v) :: (k', v') :: rest
    else (k', v') :: insertElem k v rest

/-- Models the assignment `o[k] = v` on an ordinary object that inherits from
`Object.prototype`. Assigning a string to `__proto__` runs the inherited setter, which
ignores a value that is neither an object nor `null`. -/
def set (o : JsObject) (k v : String) : JsObject :=
  match arrayIndex? k with
  | some _ => { o with elems := insertElem k v o.elems }
  | none => if k = "__proto__" then o else { o with props := upsert k v o.props }

/-- An object literal `{ k1: v1, ..., kn: vn }` with quoted keys. -/
def literal (kvs : List (String × String)) : JsObject :=
  kvs.foldl (fun o kv => o.set kv.1 kv.2) empty

/-- Models `Object.assign(target, ...sources)`; an `undefined` source is skipped. -/
def assign (target : JsObject) (sources : List (Option JsObject)) : JsObject :=
  sources.foldl
    (fun t src =>
      match src with
      | none => t
      | some s => s.entries.foldl (fun o kv => o.set kv.1 kv.2) t)
    target

end JsObject

/-! ## Jobs, settings and options -/

/-- A job, as far as the action reads it. -/
structure Job where
  uid : String
  workpath : String
  /-- The current output artifact, `undefined` when the job has none. -/
  output : Option String
deriving DecidableEq, Repr

/-- What an option that should hold a callback holds. -/
inductive Hook where
  /-- The options object has no own property of that name. -/
  | absent
  /-- The property is there and `typeof` says it is not a function. -/
  | notFunction
  /-- The property is a function. -/
  | function
deriving DecidableEq, Repr

/-- The options of the action. -/
structure EncodeOptions where
  preset : Option String
  input : Option String
  output : Option String
  params : Option JsObject
  onProgress : Hook
  onComplete : Hook
deriving DecidableEq, Repr

/-- Exceptions thrown by the code under study. -/
inductive JsError where
  /-- Node's `ERR_INVALID_ARG_TYPE`, thrown by `path.isAbsolute(undefined)`. -/
  | invalidArgType (argument : String)
  /-- An `Error` object, by its message. -/
  | error (message : String)
deriving DecidableEq, Repr

instance instDecidableEqExcept {ε α : Type} [DecidableEq ε] [DecidableEq α] :
    DecidableEq (Except ε α)
  | .ok a, .ok b => if h : a = b then isTrue (by rw [h]) else isFalse (by intro h2; cases h2; exact h rfl)
  | .error a, .error b =>
    if h : a = b then isTrue (by rw [h]) else isFalse (by intro h2; cases h2; exact h rfl)
  | .ok _, .error _ => isFalse (by intro h; cases h)
  | .error _, .ok _ => isFalse (by intro h; cases h)

/-! ## `constructParams` (index.js 61-159) -/

/-- Models `a || b` on values that are a string or `undefined`: the empty string is falsy. -/
def jsOr (a b : Option String) : Option String :=
  match a with
  | some s => if s = "" then b else some s
  | none => b

/-- Line 64 and 65: a path that is not absolute is joined with the job's working
directory; `path.isAbsolute` throws on `undefined`. -/
def resolvePath (P : PathModule) (job : Job) (p : Option String) : Except JsError String :=
  match p with
  | none => .error (.invalidArgType "path")
  | some s => .ok (if P.isAbsolute s then s else P.join job.workpath s)

/-- Lines 62 and 64: the input path. -/
def resolveInput (P : PathModule) (job : Job) (o : EncodeOptions) : Except JsError String :=
  resolvePath P job (jsOr o.input job.output)

/-- Line 65: the output path. -/
def resolveOutput (P : PathModule) (job : Job) (o : EncodeOptions) : Except JsError String :=
  resolvePath P job o.output

/-- The first object literal of each `case` of the `switch` (lines 70-153). -/
def presetTemplate (preset : Option String) (input : String) : List (String × String) :=
  if preset = some "mp4" then
    [("-i", input), ("-acodec", "aac"), ("-ab", "128k"), ("-ar", "44100"),
     ("-vcodec", "libx264"), ("-r", "25"), ("-pix_fmt", "yuv420p")]
  else if preset = some "ogg" then
    [("-i", input), ("-acodec", "libvorbis"), ("-ab", "128k"), ("-ar", "44100"),
     ("-vcodec", "libtheora"), ("-r", "25")]
  else if preset = some "webm" then
    [("-i", input), ("-acodec", "libvorbis"), ("-ab", "128k"), ("-ar", "44100"),
     ("-vcodec", "libvpx"), ("-b", "614400"), ("-aspect", "16:9")]
  else if preset = some "mp3" then
    [("-i", input), ("-acodec", "libmp3lame"), ("-ab", "128k"), ("-ar", "44100")]
  else if preset = some "m4a" then
    [("-i", input), ("-acodec", "aac"), ("-ab", "64k"), ("-ar", "44100"), ("-strict", "-2")]
  else if preset = some "gif" then
    [("-i", input), ("-ss", "61.0"), ("-t", "2.5"),
     ("-filter_complex",
      "[0:v] fps=12,scale=480:-1,split [a][b];[a] palettegen [p];[b][p] paletteuse")]
  else
    [("-i", input)]

/-- The value of `params` after the `switch`:
`Object.assign({}, {template}, params, {'-y': output})`. -/
def mergeParams (preset : Option String) (input output : String) (params : Option JsObject) :
    JsObject :=
  JsObject.assign JsObject.empty
    [some (JsObject.literal (presetTemplate preset input)), params,
     some (JsObject.literal [("-y", output)])]

/-- Lines 156-158: `Object.keys(params).reduce((cur, key) => cur.concat(key, params[key]), [])`. -/
def flattenParams (o : JsObject) : List String :=
  o.entries.foldl (fun cur kv => cur ++ [kv.1, kv.2]) []

/-- Models `constructParams(job, settings, {preset, input, output, params})`; the two
calls of the logger are left out. -/
def constructParams (P : PathModule) (job : Job) (o : EncodeOptions) :
    Except JsError (List String) := do
  let input ← resolveInput P job o
  let output ← resolveOutput P job o
  pure (flattenParams (mergeParams o.preset input output o.params))

/-- The value that follows the flag `flag` in a flat `flag, value, flag, value, ...`
sequence, at the first pair that carries the flag. -/
def argValue (flag : String) : List String → Option String
  | k :: v :: rest => if k = flag then some v else argValue flag rest
  | _ => none

/-- The keys of the user's `params`; none when `params` is `undefined`. -/
def paramKeys (o : EncodeOptions) : List String :=
  match o.params with
  | some ps => ps.keys
  | none => []

/-! ## Numbers

Every number the action computes is a non-negative double, `Infinity` or `NaN`. A finite
non-negative double is a natural multiple of `2^-1074`; `JsNum.fin k` stands for
`k * 2^-1074`. -/

/-- Number of binary digits of `n`, by halving; `fuel` bounds the number of steps. -/
def bitLenAux : Nat → Nat → Nat → Nat
  | 0, _, acc => acc
  | fuel + 1, n, acc => if n = 0 then acc else bitLenAux fuel (n / 2) (acc + 1)

/-- Number of binary digits of `n` (`0` for `0`). -/
def bitLen (n : Nat) : Nat := bitLenAux n n 0

/-- A JavaScript number that is not negative. -/
inductive JsNum where
  /-- The finite double `k * 2^-1074`. -/
  | fin (k : Nat)
  /-- Positive infinity. -/
  | inf
  /-- Not a number. -/
  | nan
deriving DecidableEq, Repr

namespace JsNum

/-- The unit in which finite values are counted: `one` stands for the number 1. -/
def one : Nat := 2 ^ 1074

/-- Nearest natural number to `a / b`, ties to the even one. -/
def roundHalfEven (a b : Nat) : Nat :=
  let q := a / b
  let r := a % b
  if 2 * r < b then q
  else if b < 2 * r then q + 1
  else if q % 2 = 0 then q else q + 1

/-- The double nearest to `(a / b) * 2^-1074`, ties to even (the rounding of IEEE 754):
a value below `2^53` units is rounded to a unit, a larger one to 53 significant bits,
and a result of `2^1024` or more is `Infinity`. -/
def roundRatio (a b : Nat) : JsNum :=
  let j := bitLen (a / b) - 53
  let k := roundHalfEven a (b * 2 ^ j) * 2 ^ j
  if k < 2 ^ 2098 then fin k else inf

/-- The number value of a natural number. -/
def ofNat (n : Nat) : JsNum := roundRatio (n * one) 1

/-- Models `x + y`. -/
def add : JsNum → JsNum → JsNum
  | fin x, fin y => roundRatio (x + y) 1
  | nan, _ => nan
  | _, nan => nan
  | _, _ => inf

/-- Models `x * y`. -/
def mul : JsNum → JsNum → JsNum
  | fin x, fin y => roundRatio (x * y) one
  | fin x, inf => if x = 0 then nan else inf
  | inf, fin y => if y = 0 then nan else inf
  | inf, inf => inf
  | _, _ => nan

/-- Models `x / y`. -/
def div : JsNum → JsNum → JsNum
  | fin x, fin y => if y = 0 then (if x = 0 then nan else inf) else roundRatio (x * one) y
  | fin _, inf => fin 0
  | inf, fin _ => inf
  | _, _ => nan

/-- Models `Math.ceil`. -/
def ceil : JsNum → JsNum
  | fin x => fin ((x + (one - 1)) / one * one)
  | inf => inf
  | nan => nan

/-- Models `x > 0`. -/
def isPositive : JsNum → Bool
  | fin x => decide (0 < x)
  | inf => true
  | nan => false

/-- Models `x === 0`. -/
def isZero : JsNum → Bool
  | fin x => decide (x = 0)
  | _ => false

end JsNum

/-! ## Regular expressions

The two patterns of the action use literal characters, `.` and the capturing group
`(\d+)`; `Regex` covers exactly these. A subject string is a list of UTF-16 code units. -/

/-- The UTF-16 code units of a string. -/
def utf16 (s : String) : List Nat :=
  s.data.flatMap fun c =>
    if c.toNat < 65536 then [c.toNat]
    else [55296 + (c.toNat - 65536) / 1024, 56320 + (c.toNat - 65536) % 1024]

/-- One element of a pattern. -/
inductive RegexItem where
  /-- A literal code unit. -/
  | lit (u : Nat)
  /-- The pattern `.`: any code unit but a line terminator. -/
  | anyChar
  /-- The pattern `(\d+)`: a greedy, capturing run of ASCII digits. -/
  | digits
deriving DecidableEq, Repr

/-- A pattern: a sequence of items. -/
abbrev Regex := List RegexItem

/-- The code units that `.` does not match: LF, CR, LS and PS. -/
def isLineTerminator (u : Nat) : Bool := u = 10 || u = 13 || u = 8232 || u = 8233

/-- The code units that `\d` matches. -/
def isDigitUnit (u : Nat) : Bool := 48 ≤ u && u ≤ 57

/-- Length of the run of digits at the head of the subject. -/
def digitRun : List Nat → Nat
  | [] => 0
  | u :: us => if isDigitUnit u then digitRun us + 1 else 0

/-- Backtracking match of a pattern at the head of the subject; on success the captured
groups, in order. A `(\d+)` tries the longest run first and gives digits back one at a
time. -/
def matchHere : Regex → List Nat → Option (List (List Nat))
  | [], _ => some []
  | .lit c :: r, us =>
    match us with
    | u :: rest => if u = c then matchHere r rest else none
    | [] => none
  | .anyChar :: r, us =>
    match us with
    | u :: rest => if isLineTerminator u then none else matchHere r rest
    | [] => none
  | .digits :: r, us =>
    (List.range (digitRun us)).reverse.findSome? fun n =>
      (matchHere r (us.drop (n + 1))).map fun caps => us.take (n + 1) :: caps

/-- Models `subject.match(regex)` for a pattern without the `g` flag: the match at the
leftmost position that has one; the result holds the groups `matches[1]`, `matches[2]`, ... -/
def regexMatch (re : Regex) : List Nat → Option (List (List Nat))
  | [] => matchHere re []
  | u :: us =>
    match matchHere re (u :: us) with
    | some caps => some caps
    | none => regexMatch re us

/-- The items for a literal text. -/
def litText (s : String) : Regex := (utf16 s).map RegexItem.lit

/-- The body `(\d+):(\d+):(\d+).(\d+)` shared by the two patterns. -/
def clockPattern : Regex :=
  [.digits, .lit 58, .digits, .lit 58, .digits, .anyChar, .digits]

/-- The pattern `/(\d+):(\d+):(\d+).(\d+), start:/` of line 189. -/
def durationRegex : Regex := clockPattern ++ litText ", start:"

/-- The pattern `/time=(\d+):(\d+):(\d+).(\d+) bitrate=/` of line 192. -/
def progressRegex : Regex := litText "time=" ++ clockPattern ++ litText " bitrate="

/-! ## The duration parser (index.js 161-171) -/

/-- The natural number written by a run of decimal digits. -/
def decimalValue (ds : List Nat) : Nat := ds.foldl (fun acc d => 10 * acc + (d - 48)) 0

/-- Models `parseInt(g)` for a capture group: `undefined` gives `NaN`; a text gives the
number value of its leading run of digits, `NaN` when that run is empty. -/
def parseInt (g : Option (List Nat)) : JsNum :=
  match g with
  | none => .nan
  | some us => if digitRun us = 0 then .nan else JsNum.ofNat (decimalValue (us.take (digitRun us)))

/-- Line 161: `(h*60*60+m*60+s)*1000`. -/
def convertToMilliseconds (h m s : JsNum) : JsNum :=
  ((((h.mul (.ofNat 60)).mul (.ofNat 60)).add (m.mul (.ofNat 60))).add s).mul (.ofNat 1000)

/-- Lines 163-171. -/
def getDuration (regex : Regex) (data : List Nat) : JsNum :=
  match regexMatch regex data with
  | some caps =>
    convertToMilliseconds (parseInt (caps.get? 0)) (parseInt (caps.get? 1)) (parseInt (caps.get? 2))
  | none => .fin 0

/-! ## The handlers of the child process (index.js 180-218) -/

/-- The two variables the `data` handler of `stderr` writes: `totalDuration` (line 180)
and `currentProgress` (line 192). -/
structure ProgressState where
  totalDuration : JsNum
  currentProgress : JsNum
deriving DecidableEq, Repr

/-- The state when the process is spawned: `let totalDuration = 0`. -/
def ProgressState.initial : ProgressState := ⟨.fin 0, .fin 0⟩

/-- Line 195: `Math.ceil(currentProgress / totalDuration * 100)`. -/
def percentage (currentProgress totalDuration : JsNum) : JsNum :=
  ((currentProgress.div totalDuration).mul (.ofNat 100)).ceil

/-- Lines 183-203, the `data` handler of `stderr`, for the text `data` of one chunk:
the next state and the percentage that the chunk reports, if any (calls of the logger
are left out). -/
def onStderrData (st : ProgressState) (data : List Nat) : ProgressState × Option JsNum :=
  let total :=
    if st.totalDuration.isZero then getDuration durationRegex data else st.totalDuration
  let current := getDuration progressRegex data
  if total.isPositive && current.isPositive then
    (⟨total, current⟩, some (percentage current total))
  else
    (⟨total, current⟩, none)

/-- Lines 197-199: the calls of `options.onProgress` that a chunk causes. -/
def progressCalls (o : EncodeOptions) (job : Job) (report : Option JsNum) : List (Job × JsNum) :=
  match report with
  | some pct => if o.onProgress = .function then [(job, pct)] else []
  | none => []

/-- A promise of a value of type `α`. -/
inductive Promise (α : Type) where
  | pending
  | fulfilled (value : α)
  | rejected (reason : JsError)
deriving DecidableEq, Repr

namespace Promise

/-- Models a call of the promise's `resolve`: only a pending promise changes. -/
def resolve {α : Type} (p : Promise α) (value : α) : Promise α :=
  match p with
  | pending => fulfilled value
  | settled => settled

/-- Models a call of the promise's `reject`: only a pending promise changes. -/
def reject {α : Type} (p : Promise α) (reason : JsError) : Promise α :=
  match p with
  | pending => rejected reason
  | settled => settled

end Promise

/-- Models the text of an exit code in `'...' + code`; `null` when a signal ended the process. -/
def exitCodeText (code : Option Int) : String :=
  match code with
  | none => "null"
  | some n => toString n

/-- The message of the error of line 210. -/
def closeErrorMessage (code : Option Int) : String :=
  "Error in action-encode module (ffmpeg) code : " ++ exitCodeText code

/-- What the `close` handler leaves behind. -/
structure CloseOutcome where
  /-- The promise of the invocation. -/
  promise : Promise Job
  /-- The calls of `options.onComplete`, by their argument. -/
  completed : List Job
deriving DecidableEq, Repr

/-- Lines 208-218, the `close` handler, run on the promise of the invocation. -/
def onClose (job : Job) (o : EncodeOptions) (code : Option Int) (p : Promise Job) :
    CloseOutcome :=
  if code ≠ some 0 then
    ⟨p.reject (.error (closeErrorMessage code)), []⟩
  else
    ⟨p.resolve job, if o.onComplete = .function then [job] else []⟩

/-! ## `getBinary` (index.js 8-58) -/

/-- What `getBinary` reads from its surroundings. -/
structure World where
  /-- Models `process.platform`. -/
  platform : String
  /-- Models `process.env.NEXRENDER_FFMPEG`, `undefined` when unset. -/
  override : Option String
  /-- Models `pkg['ffmpeg-static'].version`, read from `package.json`. -/
  version : String
  /-- Models `fs.existsSync` on a string. -/
  fileExists : String → Bool

/-- The settings of the action, as far as it reads them. -/
structure Settings where
  workpath : String
  debug : Bool
deriving DecidableEq, Repr

/-- How a download that was started ends. -/
inductive Download where
  /-- The promise of `fetch` rejects. -/
  | fetchFailed
  /-- The response arrives with `res.ok` false. -/
  | notOk
  /-- The response body emits `error`. -/
  | bodyError
  /-- The write stream emits `error`. -/
  | writeError
  /-- The write stream emits `finish`. -/
  | finished
deriving DecidableEq, Repr

/-- What a call of `getBinary` leaves behind. -/
structure BinaryOutcome where
  /-- The promise that `getBinary` returned. -/
  promise : Promise String
  /-- The URLs passed to `fetch`. -/
  fetched : List String
  /-- The files passed to `fs.chmodSync` with mode `0o755`. -/
  madeExecutable : List String
deriving DecidableEq, Repr

/-- Line 11. -/
def binaryFilename (w : World) : String :=
  "ffmpeg-" ++ w.version ++ (if w.platform = "win32" then ".exe" else "")

/-- Line 12. -/
def binaryUrl (w : World) : String :=
  "https://github.com/eugeneware/ffmpeg-static/releases/download/" ++ w.version ++ "/" ++
    w.platform ++ "-x64"

/-- Line 13. -/
def cachePath (P : PathModule) (w : World) (settings : Settings) : String :=
  P.join settings.workpath (binaryFilename w)

/-- Models `fs.existsSync(x)` where `x` may be `undefined`. -/
def existsSync (w : World) (x : Option String) : Bool :=
  match x with
  | some p => w.fileExists p
  | none => false

/-- Lines 28-56: the promise after a download that ends as `d`. A rejection of the
chain built on `fetch` has no handler, so it leaves the promise pending; `errorHandler`
rejects with `new Error({...})`, whose message is the text of the object. -/
def download (output : String) (d : Download) : Promise String × List String :=
  match d with
  | .fetchFailed => (.pending, [])
  | .notOk => (.pending, [])
  | .bodyError => (.rejected (.error "[object Object]"), [])
  | .writeError => (.rejected (.error "[object Object]"), [])
  | .finished => (.fulfilled output, [output])

/-- Models `getBinary(job, settings)` in the world `w`, where a download, if one is
started, ends as `d` (calls of the logger are left out). -/
def getBinary (P : PathModule) (w : World) (settings : Settings) (d : Download) :
    BinaryOutcome :=
  let output := cachePath P w settings
  if existsSync w w.override then
    match w.override with
    | some p => ⟨.fulfilled p, [], []⟩
    | none => ⟨.pending, [], []⟩
  else if existsSync w (some output) then
    ⟨.fulfilled output, [], []⟩
  else
    ⟨(download output d).1, [binaryUrl w], (download output d).2⟩

/-! ## The invocation (index.js 173-223) -/

/-- An event of the child process that a handler of the action listens to. -/
inductive ChildEvent where
  /-- The process emits `error`; `err` is the text of the error. -/
  | error (err : String)
  /-- The stream `stderr` emits `data`; `data` is the text of the chunk. -/
  | stderrData (data : List Nat)
  /-- The process emits `close` with an exit code, `null` after a signal. -/
  | close (code : Option Int)
deriving DecidableEq, Repr

/-- What an invocation has done so far. -/
structure Invocation where
  /-- The promise that the action returned. -/
  promise : Promise Job
  /-- The variables of the `data` handler of `stderr`. -/
  progress : ProgressState
  /-- The calls of `options.onProgress`, by their arguments. -/
  reported : List (Job × JsNum)
  /-- The calls of `options.onComplete`, by their argument. -/
  completed : List Job
deriving DecidableEq, Repr

/-- The invocation before any event of the child process. -/
def Invocation.start (p : Promise Job) : Invocation := ⟨p, ProgressState.initial, [], []⟩

/-- Lines 182-218: one event of the child process, handled. -/
def childStep (job : Job) (o : EncodeOptions) (inv : Invocation) (e : ChildEvent) : Invocation :=
  match e with
  | .error err =>
    { inv with promise := inv.promise.reject (.error ("Error starting ffmpeg process: " ++ err)) }
  | .stderrData data =>
    { inv with
      progress := (onStderrData inv.progress data).1
      reported := inv.reported ++ progressCalls o job (onStderrData inv.progress data).2 }
  | .close code =>
    { inv with
      promise := (onClose job o code inv.promise).promise
      completed := inv.completed ++ (onClose job o code inv.promise).completed }

/-- The text of an error object in a string concatenation: its name and its message.
Only `Error` objects reach it, `getBinary` rejects with nothing else. -/
def errorText (e : JsError) : String :=
  match e with
  | .error message => "Error: " ++ message
  | .invalidArgType argument => "TypeError: " ++ argument

/-- Lines 173-223, the action, with a download that ends as `d` if one is started and the
events `events` of the child process if one is spawned. An exception thrown by
`constructParams` in the executor rejects the promise; a child process is spawned only
when the promise of `getBinary` is fulfilled; a rejection of it is wrapped by the
`catch` of line 219. The `data` handler of `stdout` is left out. -/
def execute (P : PathModule) (w : World) (settings : Settings) (job : Job) (o : EncodeOptions)
    (d : Download) (events : List ChildEvent) : Invocation :=
  match constructParams P job o with
  | .error e => Invocation.start (.rejected e)
  | .ok _ =>
    match (getBinary P w settings d).promise with
    | .fulfilled _ => events.foldl (childStep job o) (Invocation.start .pending)
    | .rejected e =>
      Invocation.start (.rejected (.error ("Error in action-encode module (ffmpeg) " ++ errorText e)))
    | .pending => Invocation.start .pending

/-- The `data` handler of `stderr` on successive chunks: the last state and the
percentages reported, in order. -/
def runChunks (st : ProgressState) : List (List Nat) → ProgressState × List JsNum
  | [] => (st, [])
  | c :: cs =>
    ((runChunks (onStderrData st c).1 cs).1,
     (onStderrData st c).2.toList ++ (runChunks (onStderrData st c).1 cs).2)

/-! ## Auxiliary notions for the statements -/

open JsObject

/-- The pair of strings that an entry contributes to the flat sequence. -/
def flagPair (kv : String × String) : List String := [kv.1, kv.2]

/-- A key that `set` stores among the named properties. -/
def isNamedKey (k : String) : Bool := (arrayIndex? k).isNone && k != "__proto__"

/-- The entries that `set` stores among the named properties. -/
def namedPart (es : List (String × String)) : List (String × String) :=
  es.filter fun kv => isNamedKey kv.1

/-- The entries that `set` stores among the indexed properties. -/
def indexPart (es : List (String × String)) : List (String × String) :=
  es.filter fun kv => (arrayIndex? kv.1).isSome

/-- Successive writes of named properties. -/
def upsertAll (l us : List (String × String)) : List (String × String) :=
  us.foldl (fun acc kv => upsert kv.1 kv.2 acc) l

/-- Successive writes of indexed properties. -/
def insertAll (l us : List (String × String)) : List (String × String) :=
  us.foldl (fun acc kv => insertElem kv.1 kv.2 acc) l

/-- The entries of the user's `params`; none when `params` is `undefined`. -/
def paramEntries (params : Option JsObject) : List (String × String) :=
  match params with
  | some ps => ps.entries
  | none => []

/-- Overwrites the value of the key `k`, wherever it occurs. -/
def overwrite (k v : String) (kv : String × String) : String × String :=
  if kv.1 = k then (k, v) else kv

/-- The value that the updates `us` leave for an entry of the list they are applied to:
`us[k]` when `us` has the key `k` of the entry, the entry's own value otherwise. -/
def overlay (us : List (String × String)) (kv : String × String) : String × String :=
  (kv.1, (us.lookup kv.1).getD kv.2)

/-- A non-empty run of ASCII digits. -/
def isDigits (ds : List Nat) : Bool := !ds.isEmpty && ds.all isDigitUnit

/-- The text `h:m:s.f` of a clock reading with the groups `h`, `m`, `s` and `f`. -/
def clockText (h m s f : List Nat) : List Nat := h ++ 58 :: (m ++ 58 :: (s ++ 46 :: f))

/-- No match of the pattern starts inside `pre`, in the subject `pre ++ rest`. -/
def noMatchBefore (re : Regex) : List Nat → List Nat → Bool
  | [], _ => true
  | p :: pre, rest => (matchHere re (p :: pre ++ rest)).isNone && noMatchBefore re pre rest

/-- The milliseconds of a clock reading, as a natural number. -/
def clockMillis (h m s : List Nat) : Nat :=
  (decimalValue h * 3600 + decimalValue m * 60 + decimalValue s) * 1000

/-- The number that a text of decimal digits writes. -/
def digitsValue (cs : List Char) : Nat := cs.foldl (fun a c => 10 * a + (c.toNat - 48)) 0

/-- Reads back the text of an exit code. -/
def readExitCode (s : String) : Option Int :=
  match s.data with
  | 'n' :: _ => none
  | '-' :: cs => some (Int.negSucc (digitsValue cs - 1))
  | cs => some (Int.ofNat (digitsValue cs))

/-! ## Sample inputs -/

/-- A job with a relative output artifact. -/
def sampleJob : Job := ⟨"job-1", "/work/job-1", some "result.avi"⟩

/-- Options that name a preset and a relative output, and nothing else. -/
def sampleOptions (preset : String) : EncodeOptions :=
  ⟨some preset, none, some "encoded.out", none, .absent, .absent⟩

/-- Options whose `params` redefine both forced flags. -/
def overrideOptions : EncodeOptions :=
  ⟨some "mp4", none, some "encoded.out",
    some ⟨[], [("-i", "other.mov"), ("-y", "elsewhere.out")]⟩, .absent, .absent⟩

/-- Options whose `params` override one default of `mp4` and add one flag. -/
def tunedOptions : EncodeOptions :=
  ⟨some "mp4", none, some "encoded.out", some ⟨[], [("-r", "30"), ("-crf", "18")]⟩,
    .absent, .absent⟩

/-- Options whose `params` name `-y` before another new flag. -/
def lateOutputOptions : EncodeOptions :=
  ⟨some "mp4", none, some "encoded.out",
    some ⟨[], [("-y", "elsewhere.out"), ("-threads", "2")]⟩, .absent, .absent⟩

/-- Options whose `params` have an array-index key, as in `{0: 'zero'}`. -/
def indexedOptions : EncodeOptions :=
  ⟨some "mp3", none, some "encoded.out", some ⟨[("0", "zero")], []⟩, .absent, .absent⟩

/-- Options whose `params` name `-y`, `-i` and a new flag, in this order. -/
def shuffledOptions : EncodeOptions :=
  ⟨some "mp3", none, some "encoded.out",
    some ⟨[], [("-y", "elsewhere.out"), ("-i", "other.mov"), ("-vn", "")]⟩, .absent, .absent⟩

/-- Options whose `params` have an own key `__proto__`, as `JSON.parse` can produce. -/
def protoOptions : EncodeOptions :=
  ⟨some "mp3", none, some "encoded.out", some ⟨[], [("__proto__", "x"), ("-vn", "")]⟩,
    .absent, .absent⟩

/-- Options with an absolute input and an absolute output. -/
def absoluteOptions : EncodeOptions :=
  ⟨some "mp3", some "/media/in.wav", some "/media/out.mp3", none, .absent, .absent⟩

/-- Options that supply `onComplete` as a function. -/
def notifyingOptions : EncodeOptions :=
  ⟨some "mp4", none, some "encoded.out", none, .absent, .function⟩

/-- A Linux host where both the override path and the cache file exist. -/
def bothPresent : World :=
  ⟨"linux", some "/usr/bin/ffmpeg", "b4.2.2",
    fun p => p == "/usr/bin/ffmpeg" || p == "/cache/ffmpeg-b4.2.2"⟩

/-- A Windows host with no override, where the cache file exists. -/
def cachedOnly : World :=
  ⟨"win32", none, "b4.2.2", fun p => p == "/cache/ffmpeg-b4.2.2.exe"⟩

/-- A Linux host with an override path that does not exist and no cache file. -/
def nothingPresent : World :=
  ⟨"linux", some "/opt/missing/ffmpeg", "b4.2.2", fun _ => false⟩

/-- Settings with the cache directory `/cache`. -/
def sampleSettings : Settings := ⟨"/cache", false⟩

/-- Options that leave `output` unspecified. -/
def noOutputOptions : EncodeOptions := ⟨some "mp4", none, none, none, .absent, .absent⟩

/-- Options that give an absolute input and leave `output` unspecified. -/
def inputOnlyOptions : EncodeOptions :=
  ⟨some "mp3", some "/media/in.wav", none, none, .absent, .absent⟩

/-- A job whose output artifact is an absolute path. -/
def renderedJob : Job := ⟨"job-2", "/work/job-2", some "/renders/job-2/result.mov"⟩

/-- The state of the parser once a total duration of 100000 ms is known. -/
def knownTotal : ProgressState := ⟨JsNum.ofNat 100000, .fin 0⟩

/-- The flags of a flat `flag, value, flag, value, ...` sequence: its elements at the
even positions. -/
def flagsOf : List String → List String
  | k :: _ :: rest => k :: flagsOf rest
  | _ => []

/-- The six presets that the `switch` names. -/
def isNamedPreset (preset : Option String) : Bool :=
  preset = some "mp4" || preset = some "ogg" || preset = some "webm" || preset = some "mp3"
    || preset = some "m4a" || preset = some "gif"

/-- The value that the last write of the key `k` in a sequence of writes carries. -/
def lastValue (k : String) (writes : List (String × String)) : Option String :=
  writes.reverse.lookup k

/-- Options with a preset that the `switch` does not name. -/
def unknownPresetOptions : EncodeOptions :=
  ⟨some "flac", none, some "encoded.out", some ⟨[], [("-acodec", "flac")]⟩, .absent, .absent⟩

/-- Options without a preset whose `params` have an own key `__proto__`, as the value of
`JSON.parse('{"__proto__": "x"}')` has. -/
def protoOnlyOptions : EncodeOptions :=
  ⟨none, none, some "encoded.out", some ⟨[], [("__proto__", "x")]⟩, .absent, .absent⟩

/-- The index by which `insertElem` orders a key. -/
def elemIndex (k : String) : Nat := (arrayIndex? k).getD 0

/-- Options for `mp4` whose `params` have only the own key `__proto__`. -/
def protoMp4Options : EncodeOptions :=
  ⟨some "mp4", none, some "encoded.out", some ⟨[], [("__proto__", "x")]⟩, .absent, .absent⟩

/-- Cuts a text at every line feed: its lines, without the line feeds. -/
def splitLines : List Nat → List (List Nat)
  | [] => [[]]
  | u :: us =>
    match splitLines us with
    | [] => [[]]
    | l :: ls => if u = 10 then [] :: l :: ls else (u :: l) :: ls

/-- The reports of the specification's parser, which consumes a text one line at a
time (spec 4.3 and 5): the text is cut into its lines and each line is consumed by
itself, from the initial state. -/
def specReportsByLine (text : List Nat) : List JsNum :=
  (runChunks ProgressState.initial (splitLines text)).2

/-- The text of the lines `ls`, each ended by a line feed. -/
def unlines (ls : List (List Nat)) : List Nat := ls.flatMap fun l => l ++ [10]

/-- A line that matches neither the duration pattern nor the progress pattern. -/
def isQuiet (l : List Nat) : Bool :=
  (regexMatch durationRegex l).isNone && (regexMatch progressRegex l).isNone

/-- The number of lines that match one of the two patterns. -/
def loudLines (ls : List (List Nat)) : Nat := (ls.filter fun l => !isQuiet l).length

/-- A pattern without a literal line feed. -/
def lineFeedFree (re : Regex) : Bool := re.all fun item => item != RegexItem.lit 10

/-- Options that supply `onProgress` as a function. -/
def progressOptions : EncodeOptions :=
  ⟨some "mp4", none, some "encoded.out", none, .function, .absent⟩

/-- Three chunks of whole lines: the header, a progress line, and a line of statistics
followed by a progress line. -/
def sampleGroups : List (List (List Nat)) :=
  [[utf16 "  Duration: 0:01:40.00, start: 0.000000"],
   [utf16 "time=0:00:10.00 bitrate=1"],
   [utf16 "frame=  500 fps= 25", utf16 "time=0:00:20.00 bitrate=1"]]

/-- A diagnostic text of two lines: a header of 100 s and a progress marker at 10 s. -/
def shortText : List Nat :=
  unlines [utf16 "0:01:40.00, start:", utf16 "time=0:00:10.00 bitrate="]

/-- A cutting of `shortText` whose boundary falls inside the progress marker. -/
def splitMarkerChunks : List (List Nat) :=
  [utf16 "0:01:40.00, start:" ++ 10 :: utf16 "time=0:00:1", utf16 "0.00 bitrate=" ++ [10]]

/-- A diagnostic text of three lines: a header of 100 s and progress markers at 10 s
and at 20 s. -/
def longText : List Nat :=
  unlines [utf16 "0:01:40.00, start:", utf16 "time=0:00:10.00 bitrate=",
    utf16 "time=0:00:20.00 bitrate="]

/-- A cutting of `longText` whose second chunk holds the two progress lines. -/
def twoLineChunks : List (List Nat) :=
  [unlines [utf16 "0:01:40.00, start:"],
   unlines [utf16 "time=0:00:10.00 bitrate=", utf16 "time=0:00:20.00 bitrate="]]

/-- A header whose hours are written with 310 digits, `1` followed by 309 zeros. -/
def hugeHeaderLine : List Nat := 49 :: List.replicate 309 48 ++ utf16 ":00:00.00, start:"

/-- A number without a fractional part: `NaN`, `Infinity`, or a finite value below
`2^1024` that is a natural number. -/
def JsNum.isWhole : JsNum → Bool
  | .fin k => decide (k % JsNum.one = 0) && decide (k < 2 ^ 2098)
  | _ => true

/-- A progress line whose hours are written with 310 digits. -/
def hugeProgressLine : List Nat :=
  utf16 "time=" ++ (49 :: List.replicate 309 48 ++ utf16 ":00:00.00 bitrate=")

/-- A header of ten seconds followed by a progress line of twenty seconds. -/
def overrunChunks : List (List Nat) :=
  [utf16 "Duration: 0:00:10.00, start:", utf16 "time=0:00:20.00 bitrate="]

/-! # Theorems -/

/-! ## Parameter construction: the defaults -/

/-- The flattened merge when there are no user parameters, for each named preset. -/
theorem flatten_merge_none (preset : Option String) (i out : String) :
    flattenParams (mergeParams preset i out none)
      = (presetTemplate preset i ++ [("-y", out)]).flatMap (fun kv => [kv.1, kv.2]) := by
  unfold mergeParams presetTemplate
  split_ifs <;> rfl

/-- An empty `params` object merges like an absent one. -/
theorem mergeParams_empty (preset : Option String) (i out : String) :
    mergeParams preset i out (some JsObject.empty) = mergeParams preset i out none := rfl

/-- C1. With no user parameters (`params` absent or `{}`), `constructParams` returns, for
each of the six named presets, the flattened template of that preset in template order,
followed by `-y` and the resolved output path as the last two elements. -/
theorem constructParams_defaults (P : PathModule) (job : Job) (o : EncodeOptions)
    (input output : String)
    (hin : resolveInput P job o = .ok input) (hout : resolveOutput P job o = .ok output)
    (hparams : o.params = none ∨ o.params = some JsObject.empty) :
    (o.preset = some "mp4" → constructParams P job o = .ok
      ["-i", input, "-acodec", "aac", "-ab", "128k", "-ar", "44100", "-vcodec", "libx264",
       "-r", "25", "-pix_fmt", "yuv420p", "-y", output]) ∧
    (o.preset = some "ogg" → constructParams P job o = .ok
      ["-i", input, "-acodec", "libvorbis", "-ab", "128k", "-ar", "44100",
       "-vcodec", "libtheora", "-r", "25", "-y", output]) ∧
    (o.preset = some "webm" → constructParams P job o = .ok
      ["-i", input, "-acodec", "libvorbis", "-ab", "128k", "-ar", "44100", "-vcodec", "libvpx",
       "-b", "614400", "-aspect", "16:9", "-y", output]) ∧
    (o.preset = some "mp3" → constructParams P job o = .ok
      ["-i", input, "-acodec", "libmp3lame", "-ab", "128k", "-ar", "44100", "-y", output]) ∧
    (o.preset = some "m4a" → constructParams P job o = .ok
      ["-i", input, "-acodec", "aac", "-ab", "64k", "-ar", "44100", "-strict", "-2",
       "-y", output]) ∧
    (o.preset = some "gif" → constructParams P job o = .ok
      ["-i", input, "-ss", "61.0", "-t", "2.5", "-filter_complex",
       "[0:v] fps=12,scale=480:-1,split [a][b];[a] palettegen [p];[b][p] paletteuse",
       "-y", output]) := by
  have key : constructParams P job o
      = .ok (flattenParams (mergeParams o.preset input output none)) := by
    unfold constructParams
    rw [hin, hout]
    rcases hparams with h | h <;> rw [h] <;> rfl
  refine ⟨?_, ?_, ?_, ?_, ?_, ?_⟩ <;> intro hp <;> rw [key, hp] <;> rfl

/-- The defaults of `mp4` at a sample job: both paths are joined with the working directory. -/
theorem constructParams_defaults_witness :
    constructParams posixPath sampleJob (sampleOptions "mp4") = .ok
      ["-i", "/work/job-1/result.avi", "-acodec", "aac", "-ab", "128k", "-ar", "44100",
       "-vcodec", "libx264", "-r", "25", "-pix_fmt", "yuv420p", "-y", "/work/job-1/encoded.out"] :=
  (constructParams_defaults posixPath sampleJob (sampleOptions "mp4")
    "/work/job-1/result.avi" "/work/job-1/encoded.out" (by decide) (by decide)
    (Or.inl rfl)).1 rfl

/-! ## Property lists -/

theorem foldl_concat_pairs (es : List (String × String)) (acc : List String) :
    es.foldl (fun cur kv => cur ++ [kv.1, kv.2]) acc = acc ++ es.flatMap flagPair := by
  induction es generalizing acc with
  | nil => simp
  | cons e es ih => simp [ih, flagPair, List.flatMap_cons]

theorem flattenParams_eq (o : JsObject) :
    flattenParams o = o.elems.flatMap flagPair ++ o.props.flatMap flagPair := by
  simp [flattenParams, foldl_concat_pairs, JsObject.entries, List.flatMap_append]

theorem argValue_flatMap (flag : String) (es : List (String × String)) :
    argValue flag (es.flatMap flagPair) = es.lookup flag := by
  induction es with
  | nil => rfl
  | cons e es ih =>
    obtain ⟨k, v⟩ := e
    by_cases h : k = flag
    · subst h; simp [List.flatMap_cons, flagPair, argValue, List.lookup]
    · have h2 : (flag == k) = false := by simpa using fun h3 => h h3.symm
      simp only [List.flatMap_cons, flagPair, List.cons_append, List.nil_append, argValue, h,
        if_false, List.lookup, h2]
      exact ih

theorem lookup_cons_self (k v : String) (l : List (String × String)) :
    ((k, v) :: l).lookup k = some v := by
  simp [List.lookup]

theorem lookup_cons_ne {k a : String} (b : String) (l : List (String × String)) (h : k ≠ a) :
    ((a, b) :: l).lookup k = l.lookup k := by
  have h2 : (k == a) = false := by simpa using h
  simp [List.lookup, h2]

theorem lookup_upsert (k v k2 : String) (l : List (String × String)) :
    (upsert k v l).lookup k2 = if k2 = k then some v else l.lookup k2 := by
  induction l with
  | nil =>
    by_cases h : k2 = k
    · subst h; simp [upsert, lookup_cons_self]
    · simp [upsert, lookup_cons_ne _ _ h, h]
  | cons e l ih =>
    obtain ⟨a, b⟩ := e
    by_cases ha : a = k
    · subst ha
      by_cases h : k2 = a
      · subst h; simp [upsert, lookup_cons_self]
      · simp [upsert, lookup_cons_ne _ _ h, h]
    · by_cases h2 : k2 = a
      · subst h2
        have h3 : ¬ k2 = k := ha
        simp [upsert, ha, lookup_cons_self, h3]
      · simp [upsert, ha, lookup_cons_ne _ _ h2, ih]

theorem set_eq (o : JsObject) (k v : String) :
    o.set k v = ⟨if (arrayIndex? k).isSome then insertElem k v o.elems else o.elems,
                 if isNamedKey k then upsert k v o.props else o.props⟩ := by
  unfold JsObject.set isNamedKey
  cases h : arrayIndex? k with
  | some n => simp
  | none => by_cases h2 : k = "__proto__" <;> simp [h2]

theorem foldl_set (es : List (String × String)) (o : JsObject) :
    es.foldl (fun o kv => o.set kv.1 kv.2) o
      = ⟨insertAll o.elems (indexPart es), upsertAll o.props (namedPart es)⟩ := by
  induction es generalizing o with
  | nil => rfl
  | cons e es ih =>
    rw [List.foldl_cons, ih, set_eq]
    by_cases h1 : (arrayIndex? e.1).isSome <;> by_cases h2 : isNamedKey e.1 <;>
      simp [indexPart, namedPart, insertAll, upsertAll, List.filter_cons, h1, h2]

theorem literal_template (preset : Option String) (i : String) :
    JsObject.literal (presetTemplate preset i) = ⟨[], presetTemplate preset i⟩ := by
  unfold presetTemplate
  split_ifs <;> rfl

theorem mergeParams_eq (preset : Option String) (i out : String) (params : Option JsObject) :
    mergeParams preset i out params
      = ⟨insertAll [] (indexPart (paramEntries params)),
         upsert "-y" out (upsertAll (presetTemplate preset i) (namedPart (paramEntries params)))⟩ := by
  have hy : JsObject.literal [("-y", out)] = ⟨[], [("-y", out)]⟩ := rfl
  have hs : ∀ o : JsObject, o.set "-y" out = ⟨o.elems, upsert "-y" out o.props⟩ := fun o => rfl
  have ht : (presetTemplate preset i).foldl (fun o kv => o.set kv.1 kv.2) JsObject.empty
      = ⟨[], presetTemplate preset i⟩ := literal_template preset i
  unfold mergeParams JsObject.assign
  rw [literal_template, hy]
  cases params with
  | none =>
    simp only [List.foldl_cons, List.foldl_nil, JsObject.entries, List.nil_append, paramEntries,
      ht, hs]
    rfl
  | some ps =>
    simp only [List.foldl_cons, List.foldl_nil, JsObject.entries, List.nil_append, paramEntries,
      ht, hs]
    rw [foldl_set]

theorem lookup_eq_none_of_forall (k : String) (l : List (String × String))
    (h : ∀ e ∈ l, e.1 ≠ k) : l.lookup k = none := by
  induction l with
  | nil => rfl
  | cons e l ih =>
    obtain ⟨a, b⟩ := e
    have ha : k ≠ a := fun h2 => h (a, b) (List.mem_cons_self _ _) h2.symm
    rw [lookup_cons_ne _ _ ha]
    exact ih fun e he => h e (List.mem_cons_of_mem _ he)

theorem lookup_append_of_none (k : String) (l1 l2 : List (String × String))
    (h : l1.lookup k = none) : (l1 ++ l2).lookup k = l2.lookup k := by
  induction l1 with
  | nil => rfl
  | cons e l ih =>
    obtain ⟨a, b⟩ := e
    by_cases ha : k = a
    · subst ha; rw [lookup_cons_self] at h; cases h
    · rw [lookup_cons_ne _ _ ha] at h
      rw [List.cons_append, lookup_cons_ne _ _ ha]
      exact ih h

theorem mem_insertElem {k v : String} {l : List (String × String)} {e : String × String}
    (h : e ∈ insertElem k v l) : e = (k, v) ∨ e ∈ l := by
  induction l with
  | nil => simpa [insertElem] using h
  | cons x l ih =>
    obtain ⟨a, b⟩ := x
    unfold insertElem at h
    split_ifs at h with h1 h2
    · rcases List.mem_cons.1 h with h3 | h3
      · exact Or.inl h3
      · exact Or.inr (List.mem_cons_of_mem _ h3)
    · rcases List.mem_cons.1 h with h3 | h3
      · exact Or.inl h3
      · exact Or.inr h3
    · rcases List.mem_cons.1 h with h3 | h3
      · exact Or.inr (h3 ▸ List.mem_cons_self _ _)
      · rcases ih h3 with h4 | h4
        · exact Or.inl h4
        · exact Or.inr (List.mem_cons_of_mem _ h4)

theorem mem_insertAll {l us : List (String × String)} {e : String × String}
    (h : e ∈ insertAll l us) : e ∈ l ∨ e ∈ us := by
  induction us generalizing l with
  | nil => exact Or.inl h
  | cons u us ih =>
    rcases ih (l := insertElem u.1 u.2 l) h with h1 | h1
    · rcases mem_insertElem h1 with h2 | h2
      · exact Or.inr (h2 ▸ List.mem_cons_self _ _)
      · exact Or.inl h2
    · exact Or.inr (List.mem_cons_of_mem _ h1)

/-- The indexed properties of the merged object never carry a key that is not an index. -/
theorem lookup_elems_named (k : String) (es : List (String × String))
    (hk : arrayIndex? k = none) : (insertAll [] (indexPart es)).lookup k = none := by
  apply lookup_eq_none_of_forall
  intro e he h
  rcases mem_insertAll he with h1 | h1
  · cases h1
  · have := (List.mem_filter.1 h1).2
    rw [h, hk] at this
    cases this

theorem lookup_upsertAll_of_not_mem (k : String) (l us : List (String × String))
    (h : k ∉ us.map Prod.fst) : (upsertAll l us).lookup k = l.lookup k := by
  induction us generalizing l with
  | nil => rfl
  | cons u us ih =>
    have h1 : k ≠ u.1 := fun h2 => h (by simp [h2])
    have h2 : k ∉ us.map Prod.fst := fun h3 => h (by simp [List.mem_map] at h3 ⊢; exact Or.inr h3)
    show (upsertAll (upsert u.1 u.2 l) us).lookup k = l.lookup k
    rw [ih _ h2, lookup_upsert, if_neg h1]

theorem presetTemplate_cons (preset : Option String) (i : String) :
    ∃ rest, presetTemplate preset i = ("-i", i) :: rest ∧ "-y" ∉ ("-i" :: rest.map Prod.fst)
      ∧ ("-i" :: rest.map Prod.fst).Nodup ∧ ∀ e ∈ rest, e.1 ≠ "-i" := by
  unfold presetTemplate
  split_ifs <;> exact ⟨_, rfl, by decide, by decide, by decide⟩

theorem lookup_upsertAll_of_lookup (k v : String) (l us : List (String × String))
    (hnd : (us.map Prod.fst).Nodup) (h : us.lookup k = some v) :
    (upsertAll l us).lookup k = some v := by
  induction us generalizing l with
  | nil => cases h
  | cons u us ih =>
    obtain ⟨a, b⟩ := u
    rw [List.map_cons, List.nodup_cons] at hnd
    show (upsertAll (upsert a b l) us).lookup k = some v
    by_cases ha : k = a
    · subst ha
      rw [lookup_cons_self] at h
      cases h
      rw [lookup_upsertAll_of_not_mem _ _ _ hnd.1, lookup_upsert, if_pos rfl]
    · rw [lookup_cons_ne _ _ ha] at h
      exact ih _ hnd.2 h

theorem lookup_namedPart (k : String) (es : List (String × String)) (hk : isNamedKey k = true) :
    (namedPart es).lookup k = es.lookup k := by
  induction es with
  | nil => rfl
  | cons e es ih =>
    obtain ⟨a, b⟩ := e
    by_cases ha : k = a
    · subst ha
      simp [namedPart, List.filter_cons, hk, lookup_cons_self]
    · by_cases hn : isNamedKey a = true
      · have : namedPart ((a, b) :: es) = (a, b) :: namedPart es := by
          simp [namedPart, List.filter_cons, hn]
        rw [this, lookup_cons_ne _ _ ha, lookup_cons_ne _ _ ha, ih]
      · have : namedPart ((a, b) :: es) = namedPart es := by
          simp [namedPart, List.filter_cons, hn]
        rw [this, lookup_cons_ne _ _ ha, ih]

theorem paramKeys_eq (o : EncodeOptions) :
    paramKeys o = (paramEntries o.params).map Prod.fst := by
  unfold paramKeys paramEntries
  cases o.params <;> rfl

theorem constructParams_ok (P : PathModule) (job : Job) (o : EncodeOptions)
    (input output : String)
    (hin : resolveInput P job o = .ok input) (hout : resolveOutput P job o = .ok output) :
    constructParams P job o
      = .ok (flattenParams (mergeParams o.preset input output o.params)) := by
  unfold constructParams
  rw [hin, hout]
  rfl

theorem argValue_flatten (flag : String) (o : JsObject) :
    argValue flag (flattenParams o) = o.entries.lookup flag := by
  rw [flattenParams_eq, ← List.flatMap_append, argValue_flatMap]
  rfl

theorem argValue_merge (flag : String) (hf : arrayIndex? flag = none)
    (preset : Option String) (i out : String) (params : Option JsObject) :
    argValue flag (flattenParams (mergeParams preset i out params))
      = (upsert "-y" out (upsertAll (presetTemplate preset i)
          (namedPart (paramEntries params)))).lookup flag := by
  rw [argValue_flatten, mergeParams_eq]
  exact lookup_append_of_none _ _ _ (lookup_elems_named flag _ hf)

theorem not_mem_namedPart {k : String} {es : List (String × String)}
    (h : k ∉ es.map Prod.fst) : k ∉ (namedPart es).map Prod.fst := by
  intro h2
  obtain ⟨e, he, rfl⟩ := List.mem_map.1 h2
  exact h (List.mem_map.2 ⟨e, (List.mem_filter.1 he).1, rfl⟩)

theorem nodup_namedPart {es : List (String × String)}
    (h : (es.map Prod.fst).Nodup) : ((namedPart es).map Prod.fst).Nodup :=
  (List.filter_sublist es).map Prod.fst |>.nodup h

/-- C2, as the code has it. For every preset and every user `params`: the value after
`-y` is the resolved output path, whatever `params` holds; the value after `-i` is the
resolved input path when `params` has no key `-i`, and `params['-i']` when it has one. -/
theorem constructParams_forced_flags (P : PathModule) (job : Job) (o : EncodeOptions)
    (input output : String)
    (hin : resolveInput P job o = .ok input) (hout : resolveOutput P job o = .ok output) :
    ∃ xs, constructParams P job o = .ok xs ∧
      argValue "-y" xs = some output ∧
      ("-i" ∉ paramKeys o → argValue "-i" xs = some input) ∧
      (∀ ps v, o.params = some ps → ps.keys.Nodup → ps.get? "-i" = some v →
        argValue "-i" xs = some v) := by
  refine ⟨_, constructParams_ok P job o input output hin hout, ?_, ?_, ?_⟩
  · rw [argValue_merge "-y" (by decide), lookup_upsert, if_pos rfl]
  · intro h
    rw [paramKeys_eq] at h
    obtain ⟨rest, hT, -, -, -⟩ := presetTemplate_cons o.preset input
    rw [argValue_merge "-i" (by decide), lookup_upsert, if_neg (by decide),
      lookup_upsertAll_of_not_mem _ _ _ (not_mem_namedPart h), hT, lookup_cons_self]
  · intro ps v hps hnd hv
    rw [argValue_merge "-i" (by decide), lookup_upsert, if_neg (by decide), hps]
    apply lookup_upsertAll_of_lookup _ _ _ _ (nodup_namedPart hnd)
    rw [lookup_namedPart _ _ (by decide)]
    exact hv

/-- The forced flags at `overrideOptions`: `-y` keeps the resolved output path, and `-i`
carries the value that `params` gave it. -/
theorem constructParams_forced_flags_witness :
    ∃ xs, constructParams posixPath sampleJob overrideOptions = .ok xs ∧
      argValue "-y" xs = some "/work/job-1/encoded.out" ∧
      argValue "-i" xs = some "other.mov" :=
  let ⟨xs, h1, h2, _, h4⟩ := constructParams_forced_flags posixPath sampleJob overrideOptions
    "/work/job-1/result.avi" "/work/job-1/encoded.out" (by decide) (by decide)
  ⟨xs, h1, h2, h4 _ "other.mov" rfl (by decide) (by decide)⟩

/-- C2, counterexample. The resolved input path of the sample job is
`/work/job-1/result.avi`, and yet with `params = {'-i': 'other.mov', '-y': 'elsewhere.out'}`
the value emitted after `-i` is `other.mov`: the input flag is overridden by `params`. -/
theorem constructParams_input_overridden :
    resolveInput posixPath sampleJob overrideOptions = .ok "/work/job-1/result.avi" ∧
    constructParams posixPath sampleJob overrideOptions = .ok
      ["-i", "other.mov", "-acodec", "aac", "-ab", "128k", "-ar", "44100", "-vcodec", "libx264",
       "-r", "25", "-pix_fmt", "yuv420p", "-y", "/work/job-1/encoded.out"] := by
  decide

theorem upsert_of_not_mem (k v : String) (l : List (String × String))
    (h : k ∉ l.map Prod.fst) : upsert k v l = l ++ [(k, v)] := by
  induction l with
  | nil => rfl
  | cons e l ih =>
    obtain ⟨a, b⟩ := e
    have ha : a ≠ k := fun h2 => h (by simp [h2])
    have hl : k ∉ l.map Prod.fst := fun h2 => h (List.mem_cons_of_mem _ h2)
    simp [upsert, ha, ih hl]

theorem upsert_of_mem (k v : String) (l : List (String × String))
    (hnd : (l.map Prod.fst).Nodup) (h : k ∈ l.map Prod.fst) :
    upsert k v l = l.map (overwrite k v) := by
  induction l with
  | nil => cases h
  | cons e l ih =>
    obtain ⟨a, b⟩ := e
    rw [List.map_cons, List.nodup_cons] at hnd
    by_cases ha : a = k
    · subst ha
      have : l.map (overwrite a v) = l := by
        conv_rhs => rw [← List.map_id l]
        apply List.map_congr_left
        intro e he
        have : e.1 ≠ a := fun h2 => hnd.1 (List.mem_map.2 ⟨e, he, h2⟩)
        simp [overwrite, this]
      simp [upsert, overwrite, this]
    · have hk : k ∈ l.map Prod.fst := by
        rcases List.mem_cons.1 h with h2 | h2
        · exact absurd h2.symm ha
        · exact h2
      simp [upsert, overwrite, ha, ih hnd.2 hk]

theorem keys_upsert (k v : String) (l : List (String × String)) :
    (upsert k v l).map Prod.fst
      = if k ∈ l.map Prod.fst then l.map Prod.fst else l.map Prod.fst ++ [k] := by
  induction l with
  | nil => simp [upsert]
  | cons e l ih =>
    obtain ⟨a, b⟩ := e
    by_cases ha : a = k
    · subst ha; simp [upsert]
    · have hk : ¬ k = a := fun h => ha h.symm
      by_cases hm : k ∈ l.map Prod.fst
      · simp only [upsert, ha, if_false, List.map_cons, ih, hm, if_true, List.mem_cons, or_true]
      · simp only [upsert, ha, if_false, List.map_cons, ih, hm, List.mem_cons, hk, or_self,
          List.cons_append]

theorem nodup_keys_upsert (k v : String) (l : List (String × String))
    (hnd : (l.map Prod.fst).Nodup) : ((upsert k v l).map Prod.fst).Nodup := by
  rw [keys_upsert]
  split_ifs with h
  · exact hnd
  · exact List.Nodup.append hnd (List.nodup_singleton k) (by simpa using h)

/-- Successive writes of entries with distinct keys into a list with distinct keys: the
old entries stay in place with the new values, the new keys follow in their own order. -/
theorem upsertAll_eq (l us : List (String × String))
    (hl : (l.map Prod.fst).Nodup) (hus : (us.map Prod.fst).Nodup) :
    upsertAll l us
      = l.map (overlay us) ++ us.filter (fun kv => decide (kv.1 ∉ l.map Prod.fst)) := by
  induction us generalizing l with
  | nil =>
    have : l.map (overlay []) = l := by
      conv_rhs => rw [← List.map_id l]
      apply List.map_congr_left
      intro e _
      rfl
    simp [upsertAll, this]
  | cons u us ih =>
    obtain ⟨k, v⟩ := u
    rw [List.map_cons, List.nodup_cons] at hus
    show upsertAll (upsert k v l) us = _
    rw [ih _ (nodup_keys_upsert k v l hl) hus.2]
    have hlook : us.lookup k = none :=
      lookup_eq_none_of_forall k us fun e he h => hus.1 (List.mem_map.2 ⟨e, he, h⟩)
    by_cases hm : k ∈ l.map Prod.fst
    · rw [keys_upsert, if_pos hm, upsert_of_mem k v l hl hm, List.map_map]
      congr 1
      · apply List.map_congr_left
        intro e he
        by_cases hek : e.1 = k
        · simp [overlay, overwrite, hek, hlook, lookup_cons_self]
        · simp [overlay, overwrite, hek, lookup_cons_ne _ _ hek]
      · simp [List.filter_cons, hm]
    · rw [keys_upsert, if_neg hm, upsert_of_not_mem k v l hm, List.map_append]
      have h1 : l.map (overlay us) = l.map (overlay ((k, v) :: us)) := by
        apply List.map_congr_left
        intro e he
        have hek : e.1 ≠ k := fun h => hm (List.mem_map.2 ⟨e, he, h⟩)
        simp [overlay, lookup_cons_ne _ _ hek]
      have h2 : us.filter (fun kv => decide (kv.1 ∉ l.map Prod.fst ++ [k]))
          = us.filter (fun kv => decide (kv.1 ∉ l.map Prod.fst)) := by
        apply List.filter_congr
        intro e he
        have hek : e.1 ≠ k := fun h => hus.1 (List.mem_map.2 ⟨e, he, h⟩)
        simp [hek]
      rw [h1, h2]
      simp [List.filter_cons, hm, overlay, hlook]
theorem argValue_merge_output (preset : Option String) (i out : String)
    (params : Option JsObject) :
    argValue "-y" (flattenParams (mergeParams preset i out params)) = some out := by
  rw [argValue_merge "-y" (by decide), lookup_upsert, if_pos rfl]

theorem argValue_merge_input (preset : Option String) (i out : String)
    (params : Option JsObject) (h : "-i" ∉ (paramEntries params).map Prod.fst) :
    argValue "-i" (flattenParams (mergeParams preset i out params)) = some i := by
  obtain ⟨rest, hT, -, -, -⟩ := presetTemplate_cons preset i
  rw [argValue_merge "-i" (by decide), lookup_upsert, if_neg (by decide),
    lookup_upsertAll_of_not_mem _ _ _ (not_mem_namedPart h), hT, lookup_cons_self]

theorem indexPart_eq_nil (es : List (String × String))
    (h : ∀ k ∈ es.map Prod.fst, arrayIndex? k = none) : indexPart es = [] := by
  apply List.filter_eq_nil_iff.2
  intro e he
  simp [h e.1 (List.mem_map_of_mem _ he)]

theorem namedPart_eq_self (es : List (String × String))
    (h : ∀ k ∈ es.map Prod.fst, arrayIndex? k = none ∧ k ≠ "__proto__") : namedPart es = es := by
  apply List.filter_eq_self.2
  intro e he
  have := h e.1 (List.mem_map_of_mem _ he)
  simp [isNamedKey, this.1, this.2]

theorem keys_upsertAll (k : String) (l us : List (String × String))
    (h : k ∈ (upsertAll l us).map Prod.fst) : k ∈ l.map Prod.fst ∨ k ∈ us.map Prod.fst := by
  induction us generalizing l with
  | nil => exact Or.inl h
  | cons u us ih =>
    rcases ih (upsert u.1 u.2 l) h with h1 | h1
    · rw [keys_upsert] at h1
      split_ifs at h1
      · exact Or.inl h1
      · rcases List.mem_append.1 h1 with h2 | h2
        · exact Or.inl h2
        · exact Or.inr (by simp at h2; simp [h2])
    · exact Or.inr (List.mem_cons_of_mem _ h1)

theorem upsertAll_head (k0 v0 : String) (l us : List (String × String))
    (h : k0 ∉ us.map Prod.fst) : ∃ tl, upsertAll ((k0, v0) :: l) us = (k0, v0) :: tl := by
  induction us generalizing l with
  | nil => exact ⟨l, rfl⟩
  | cons u us ih =>
    have h1 : ¬ k0 = u.1 := fun h2 => h (by simp [h2])
    have h2 : k0 ∉ us.map Prod.fst := fun h3 => h (List.mem_cons_of_mem _ h3)
    obtain ⟨tl, htl⟩ := ih (upsert u.1 u.2 l) h2
    exact ⟨tl, by simpa [upsertAll, upsert, h1] using htl⟩

theorem drop_append_pair (l : List String) (a b : String) :
    (l ++ [a, b]).drop ((l ++ [a, b]).length - 2) = [a, b] := by
  have : (l ++ [a, b]).length - 2 = l.length := by simp
  rw [this, List.drop_left]

/-- C3, as the code has it. For every preset and every user `params` whose keys are distinct
and none of which is `-y`, `__proto__` or an array index, `constructParams` returns: the
flags of the template in template order, each with the value `params[k]` when `params`
has the key `k` and with its default otherwise; then the keys of `params` that are not in
the template, with their values, in the order of `params`; then `-y` and the resolved
output path. -/
theorem constructParams_overlay (P : PathModule) (job : Job) (o : EncodeOptions)
    (input output : String) (ps : JsObject)
    (hin : resolveInput P job o = .ok input) (hout : resolveOutput P job o = .ok output)
    (hps : o.params = some ps) (hnd : ps.keys.Nodup)
    (hkeys : ∀ k ∈ ps.keys, arrayIndex? k = none ∧ k ≠ "__proto__" ∧ k ≠ "-y") :
    constructParams P job o = .ok
      (((presetTemplate o.preset input).map (overlay ps.entries)
        ++ ps.entries.filter
            (fun kv => decide (kv.1 ∉ (presetTemplate o.preset input).map Prod.fst))
        ++ [("-y", output)]).flatMap flagPair) := by
  obtain ⟨rest, hT, hy, hTnd, -⟩ := presetTemplate_cons o.preset input
  have hTkeys : (presetTemplate o.preset input).map Prod.fst = "-i" :: rest.map Prod.fst := by
    rw [hT]; rfl
  rw [constructParams_ok P job o input output hin hout, flattenParams_eq, mergeParams_eq, hps]
  have hE : paramEntries (some ps) = ps.entries := rfl
  rw [hE, indexPart_eq_nil _ fun k hk => (hkeys k hk).1,
    namedPart_eq_self _ fun k hk => ⟨(hkeys k hk).1, (hkeys k hk).2.1⟩,
    upsertAll_eq _ _ (hTkeys ▸ hTnd) hnd, upsert_of_not_mem]
  · rfl
  · intro h
    rw [List.map_append, List.mem_append] at h
    rcases h with h | h
    · rw [List.map_map] at h
      have : (Prod.fst ∘ overlay ps.entries) = Prod.fst := rfl
      rw [this, hTkeys] at h
      exact hy h
    · obtain ⟨e, he, h2⟩ := List.mem_map.1 h
      exact (hkeys e.1 (List.mem_map_of_mem _ (List.mem_filter.1 he).1)).2.2 h2

/-- The merge at `tunedOptions`: `-r` takes the value of `params` in its template
position, the new flag `-crf` comes after the template and before `-y`. -/
theorem constructParams_overlay_witness :
    constructParams posixPath sampleJob tunedOptions = .ok
      ["-i", "/work/job-1/result.avi", "-acodec", "aac", "-ab", "128k", "-ar", "44100",
       "-vcodec", "libx264", "-r", "30", "-pix_fmt", "yuv420p", "-crf", "18",
       "-y", "/work/job-1/encoded.out"] :=
  constructParams_overlay posixPath sampleJob tunedOptions "/work/job-1/result.avi"
    "/work/job-1/encoded.out" ⟨[], [("-r", "30"), ("-crf", "18")]⟩ (by decide) (by decide) rfl
    (by decide) (by decide)

/-- C3, counterexample. With `params = {'-y': 'elsewhere.out', '-threads': '2'}` the key
`-threads`, which is not in the template of `mp4`, comes after the `-y` flag and not
before it: `-y` keeps the place where `params` created it. -/
theorem constructParams_flag_after_output :
    constructParams posixPath sampleJob lateOutputOptions = .ok
      ["-i", "/work/job-1/result.avi", "-acodec", "aac", "-ab", "128k", "-ar", "44100",
       "-vcodec", "libx264", "-r", "25", "-pix_fmt", "yuv420p",
       "-y", "/work/job-1/encoded.out", "-threads", "2"] := by
  decide

/-- C8. For every job and every supplied input and output path: a path that is absolute
is the value of `-i` / `-y` unchanged, and a path that is not absolute is replaced by
the join of the job's working directory with it. (A supplied input is a non-empty
string; the value of `-i` is the input path as long as `params` does not redefine `-i`.) -/
theorem constructParams_resolves_paths (P : PathModule) (job : Job) (o : EncodeOptions)
    (inp out : String) (hi : o.input = some inp) (hne : inp ≠ "") (ho : o.output = some out) :
    ∃ xs, constructParams P job o = .ok xs ∧
      argValue "-y" xs = some (if P.isAbsolute out then out else P.join job.workpath out) ∧
      ("-i" ∉ paramKeys o →
        argValue "-i" xs = some (if P.isAbsolute inp then inp else P.join job.workpath inp)) := by
  have hin : resolveInput P job o
      = .ok (if P.isAbsolute inp then inp else P.join job.workpath inp) := by
    simp [resolveInput, resolvePath, jsOr, hi, hne]
  have hout : resolveOutput P job o
      = .ok (if P.isAbsolute out then out else P.join job.workpath out) := by
    simp [resolveOutput, resolvePath, ho]
  refine ⟨_, constructParams_ok P job o _ _ hin hout, argValue_merge_output _ _ _ _, ?_⟩
  intro h
  rw [paramKeys_eq] at h
  exact argValue_merge_input _ _ _ _ h

/-- Absolute paths are used as they are. -/
theorem constructParams_resolves_paths_witness :
    ∃ xs, constructParams posixPath sampleJob absoluteOptions = .ok xs ∧
      argValue "-y" xs = some "/media/out.mp3" ∧ argValue "-i" xs = some "/media/in.wav" :=
  let ⟨xs, h1, h2, h3⟩ := constructParams_resolves_paths posixPath sampleJob absoluteOptions
    "/media/in.wav" "/media/out.mp3" rfl (by decide) rfl
  ⟨xs, h1, h2, h3 (by decide)⟩

/-- C9, as the code has it. For every preset and every user `params`: when `params` has
no array-index key and no key `-i`, the sequence begins with `-i` and the resolved input
path; when `params` has no key `-y`, the sequence ends with `-y` and the resolved output
path. -/
theorem constructParams_first_last (P : PathModule) (job : Job) (o : EncodeOptions)
    (input output : String)
    (hin : resolveInput P job o = .ok input) (hout : resolveOutput P job o = .ok output) :
    ∃ xs, constructParams P job o = .ok xs ∧
      ((∀ k ∈ paramKeys o, arrayIndex? k = none ∧ k ≠ "-i") → xs.take 2 = ["-i", input]) ∧
      ("-y" ∉ paramKeys o → xs.drop (xs.length - 2) = ["-y", output]) := by
  obtain ⟨rest, hT, hy, -, -⟩ := presetTemplate_cons o.preset input
  refine ⟨_, constructParams_ok P job o input output hin hout, ?_, ?_⟩
  · intro h
    rw [paramKeys_eq] at h
    have hi : "-i" ∉ (namedPart (paramEntries o.params)).map Prod.fst :=
      not_mem_namedPart fun h2 => (h _ h2).2 rfl
    obtain ⟨tl, htl⟩ := upsertAll_head "-i" input rest _ hi
    rw [flattenParams_eq, mergeParams_eq, indexPart_eq_nil _ fun k hk => (h k hk).1, hT, htl]
    rfl
  · intro h
    rw [paramKeys_eq] at h
    have hm : "-y" ∉ (upsertAll (presetTemplate o.preset input)
        (namedPart (paramEntries o.params))).map Prod.fst := by
      intro h2
      rcases keys_upsertAll _ _ _ h2 with h3 | h3
      · rw [hT] at h3; exact hy h3
      · exact not_mem_namedPart h h3
    rw [flattenParams_eq, mergeParams_eq]
    simp only []
    rw [upsert_of_not_mem _ _ _ hm, List.flatMap_append, ← List.append_assoc]
    exact drop_append_pair _ _ _

/-- The first and the last pair at `tunedOptions`. -/
theorem constructParams_first_last_witness :
    ∃ xs, constructParams posixPath sampleJob tunedOptions = .ok xs ∧
      xs.take 2 = ["-i", "/work/job-1/result.avi"] ∧
      xs.drop (xs.length - 2) = ["-y", "/work/job-1/encoded.out"] :=
  let ⟨xs, h1, h2, h3⟩ := constructParams_first_last posixPath sampleJob tunedOptions
    "/work/job-1/result.avi" "/work/job-1/encoded.out" (by decide) (by decide)
  ⟨xs, h1, h2 (by decide), h3 (by decide)⟩

/-- C9, counterexample. With `params = {'-y': 'elsewhere.out', '-i': 'other.mov', '-vn': ''}`
the sequence begins with `-i`, `other.mov`, which is not the resolved input path
`/work/job-1/result.avi`, and it ends with `-vn` and its value: `-y` stays where
`params` created it, so the output pair is not last. -/
theorem constructParams_pairs_displaced :
    resolveInput posixPath sampleJob shuffledOptions = .ok "/work/job-1/result.avi" ∧
    constructParams posixPath sampleJob shuffledOptions = .ok
      ["-i", "other.mov", "-acodec", "libmp3lame", "-ab", "128k", "-ar", "44100",
       "-y", "/work/job-1/encoded.out", "-vn", ""] := by
  decide

/-- With `params = {0: 'zero'}` the sequence begins with the pair `0`, `zero`: an
array-index key is enumerated before every other key. -/
theorem constructParams_index_key_first :
    constructParams posixPath sampleJob indexedOptions = .ok
      ["0", "zero", "-i", "/work/job-1/result.avi", "-acodec", "libmp3lame", "-ab", "128k",
       "-ar", "44100", "-y", "/work/job-1/encoded.out"] := by
  decide

/-- With an own key `__proto__` in `params` the sequence has no pair for it: the
assignment of a string to `__proto__` creates no property. -/
theorem constructParams_proto_key_dropped :
    constructParams posixPath sampleJob protoOptions = .ok
      ["-i", "/work/job-1/result.avi", "-acodec", "libmp3lame", "-ab", "128k",
       "-ar", "44100", "-vn", "", "-y", "/work/job-1/encoded.out"] := by
  decide

theorem bitLenAux_le (fuel n acc k : Nat) (h : n < 2 ^ k) : bitLenAux fuel n acc ≤ acc + k := by
  induction fuel generalizing n acc k with
  | zero => simp [bitLenAux]
  | succ fuel ih =>
    unfold bitLenAux
    split_ifs with h0
    · omega
    · cases k with
      | zero => simp at h; exact absurd h h0
      | succ k =>
        have h2 : n / 2 < 2 ^ k := by
          rw [Nat.div_lt_iff_lt_mul (by norm_num)]
          rw [pow_succ] at h
          exact h
        have := ih (n / 2) (acc + 1) k h2
        omega

theorem bitLen_le (n k : Nat) (h : n < 2 ^ k) : bitLen n ≤ k := by
  have := bitLenAux_le n n 0 k h
  simpa [bitLen] using this

namespace JsNum

theorem two_pow_mono (a b : Nat) (h : a ≤ b) : 2 ^ a ≤ 2 ^ b :=
  Nat.pow_le_pow_right (by decide) h

theorem one_pos : 0 < one := by
  unfold one
  apply Nat.two_pow_pos

theorem roundHalfEven_mul (q b : Nat) (hb : 0 < b) : roundHalfEven (q * b) b = q := by
  unfold roundHalfEven
  simp [Nat.mul_mod_left, Nat.mul_div_cancel _ hb, hb]

/-- A ratio that is a natural number below `2^53` is not rounded. -/
theorem roundRatio_exact (a b n : Nat) (hb : 0 < b) (ha : a = n * one * b) (hn : n < 2 ^ 53) :
    roundRatio a b = fin (n * one) := by
  have hq : a / b = n * one := by rw [ha, Nat.mul_div_cancel _ hb]
  have hlt : n * one < 2 ^ (53 + 1074) := by
    rw [pow_add]
    exact Nat.mul_lt_mul_of_lt_of_le hn (le_refl _) one_pos
  have hj : bitLen (n * one) - 53 ≤ 1074 := by
    have := bitLen_le _ _ hlt
    omega
  obtain ⟨d, hd⟩ : ∃ d, 1074 = d + (bitLen (n * one) - 53) := ⟨1074 - (bitLen (n * one) - 53), by omega⟩
  have hone : one = 2 ^ d * 2 ^ (bitLen (n * one) - 53) := by
    rw [← pow_add, ← hd]; rfl
  unfold roundRatio
  simp only [hq]
  have h1 : a = (n * 2 ^ d) * (b * 2 ^ (bitLen (n * one) - 53)) := by
    rw [ha]
    conv_lhs => rw [hone]
    ring
  have h2 : roundHalfEven a (b * 2 ^ (bitLen (n * one) - 53)) = n * 2 ^ d := by
    rw [h1]
    exact roundHalfEven_mul _ _ (Nat.mul_pos hb (Nat.two_pow_pos _))
  have h3 : n * 2 ^ d * 2 ^ (bitLen (n * one) - 53) = n * one := by
    conv_rhs => rw [hone]
    ring
  rw [h2, h3, if_pos]
  exact Nat.lt_of_lt_of_le hlt (two_pow_mono _ _ (by decide))

theorem mul_fin (x y : Nat) : mul (fin x) (fin y) = roundRatio (x * y) one := rfl

theorem add_fin (x y : Nat) : add (fin x) (fin y) = roundRatio (x + y) 1 := rfl

theorem ofNat_eq (n : Nat) (hn : n < 2 ^ 53) : ofNat n = fin (n * one) := by
  unfold ofNat
  exact roundRatio_exact (n * one) 1 n (by norm_num) (by ring) hn

theorem mul_ofNat (x y : Nat) (h : x * y < 2 ^ 53) (hx : x < 2 ^ 53) (hy : y < 2 ^ 53) :
    mul (ofNat x) (ofNat y) = ofNat (x * y) := by
  rw [ofNat_eq x hx, ofNat_eq y hy, ofNat_eq _ h, mul_fin]
  exact roundRatio_exact (x * one * (y * one)) one (x * y) one_pos (by ring) h

theorem add_ofNat (x y : Nat) (h : x + y < 2 ^ 53) :
    add (ofNat x) (ofNat y) = ofNat (x + y) := by
  rw [ofNat_eq x (by omega), ofNat_eq y (by omega), ofNat_eq _ h, add_fin]
  exact roundRatio_exact (x * one + y * one) 1 (x + y) (by norm_num) (by ring) h

end JsNum

/-! ## Known values of double-precision arithmetic -/

/-- The double nearest to 1/10 is `3602879701896397 / 2^55`. -/
theorem JsNum.div_one_ten :
    JsNum.div (JsNum.ofNat 1) (JsNum.ofNat 10) = JsNum.fin (3602879701896397 * 2 ^ 1019) := by
  decide!

/-- The product `0.07 * 100` is `7 + 2^-50`, the double that follows 7. -/
theorem JsNum.seven_hundredths_times_hundred :
    JsNum.mul (JsNum.div (JsNum.ofNat 7) (JsNum.ofNat 100)) (JsNum.ofNat 100)
      = JsNum.fin ((7 * 2 ^ 50 + 1) * 2 ^ 1024) := by
  decide!

/-- The product `0.1 * 100` is 10. -/
theorem JsNum.tenth_times_hundred :
    JsNum.mul (JsNum.div (JsNum.ofNat 1) (JsNum.ofNat 10)) (JsNum.ofNat 100) = JsNum.ofNat 10 := by
  decide!

/-- The integer `2^53 + 1` is rounded to `2^53`, and `2^1024` is `Infinity`. -/
theorem JsNum.ofNat_rounds :
    JsNum.ofNat (2 ^ 53 + 1) = JsNum.ofNat (2 ^ 53) ∧ JsNum.ofNat (2 ^ 1024) = JsNum.inf ∧
    JsNum.ofNat (2 ^ 1024 - 2 ^ 970 - 1) = JsNum.fin ((2 ^ 53 - 1) * 2 ^ 2045) := by
  decide!

theorem convertToMilliseconds_ofNat (h m s : Nat)
    (hr : (h * 3600 + m * 60 + s) * 1000 < 2 ^ 53) :
    convertToMilliseconds (.ofNat h) (.ofNat m) (.ofNat s)
      = .ofNat ((h * 3600 + m * 60 + s) * 1000) := by
  have e : (2:Nat) ^ 53 = 9007199254740992 := by norm_num
  have h1 : h * 60 < 2 ^ 53 := by omega
  have h2 : h * 60 * 60 < 2 ^ 53 := by omega
  have h3 : m * 60 < 2 ^ 53 := by omega
  have h4 : h * 60 * 60 + m * 60 < 2 ^ 53 := by omega
  have h5 : h * 60 * 60 + m * 60 + s < 2 ^ 53 := by omega
  have h6 : (h * 60 * 60 + m * 60 + s) * 1000 < 2 ^ 53 := by omega
  have c60 : 60 < 2 ^ 53 := by norm_num
  have c1000 : 1000 < 2 ^ 53 := by norm_num
  unfold convertToMilliseconds
  rw [JsNum.mul_ofNat h 60 h1 (by omega) c60, JsNum.mul_ofNat (h * 60) 60 h2 h1 c60,
    JsNum.mul_ofNat m 60 h3 (by omega) c60, JsNum.add_ofNat _ _ h4, JsNum.add_ofNat _ _ h5,
    JsNum.mul_ofNat _ 1000 h6 h5 c1000]
  have e2 : (h * 60 * 60 + m * 60 + s) * 1000 = (h * 3600 + m * 60 + s) * 1000 := by ring
  rw [e2]
theorem digitRun_append (ds rest : List Nat) (h : ds.all isDigitUnit = true) :
    digitRun (ds ++ rest) = ds.length + digitRun rest := by
  induction ds with
  | nil => simp
  | cons d ds ih =>
    rw [List.all_cons, Bool.and_eq_true] at h
    show (if isDigitUnit d = true then digitRun (ds ++ rest) + 1 else 0) = _
    rw [if_pos h.1, ih h.2, List.length_cons]
    omega

theorem digitRun_stop (u : Nat) (us : List Nat) (h : isDigitUnit u = false) :
    digitRun (u :: us) = 0 := by
  simp [digitRun, h]

theorem matchHere_digits (r : Regex) (us : List Nat) (n : Nat) (caps : List (List Nat))
    (hrun : digitRun us = n + 1) (hrest : matchHere r (us.drop (n + 1)) = some caps) :
    matchHere (.digits :: r) us = some (us.take (n + 1) :: caps) := by
  simp only [matchHere, hrun, List.range_succ, List.reverse_append, List.reverse_singleton,
    List.singleton_append, List.findSome?_cons, hrest, Option.map_some']

theorem matchHere_digits_append (r : Regex) (ds rest : List Nat) (caps : List (List Nat))
    (hds : isDigits ds = true) (hstop : digitRun rest = 0)
    (hrest : matchHere r rest = some caps) :
    matchHere (.digits :: r) (ds ++ rest) = some (ds :: caps) := by
  unfold isDigits at hds
  rw [Bool.and_eq_true] at hds
  obtain ⟨n, hn⟩ : ∃ n, ds.length = n + 1 := by
    cases ds with
    | nil => simp at hds
    | cons d ds => exact ⟨ds.length, rfl⟩
  have hrun : digitRun (ds ++ rest) = n + 1 := by rw [digitRun_append _ _ hds.2, hstop, hn]
  have h := matchHere_digits r (ds ++ rest) n caps hrun (by rw [← hn, List.drop_left]; exact hrest)
  rw [← hn, List.take_left] at h
  exact h

theorem matchHere_lit (r : Regex) (c : Nat) (us : List Nat) :
    matchHere (.lit c :: r) (c :: us) = matchHere r us := by
  simp [matchHere]

theorem matchHere_anyChar (r : Regex) (u : Nat) (us : List Nat) (h : isLineTerminator u = false) :
    matchHere (.anyChar :: r) (u :: us) = matchHere r us := by
  simp [matchHere, h]

theorem matchHere_literal (l : List Nat) (r : Regex) (us : List Nat) :
    matchHere (l.map RegexItem.lit ++ r) (l ++ us) = matchHere r us := by
  induction l with
  | nil => rfl
  | cons c l ih => rw [List.map_cons, List.cons_append, List.cons_append, matchHere_lit, ih]

/-- The body of the two patterns, on a clock reading that a non-digit follows. -/
theorem matchHere_clock (r : Regex) (h m s f tail : List Nat) (caps : List (List Nat))
    (hh : isDigits h = true) (hm : isDigits m = true) (hs : isDigits s = true)
    (hf : isDigits f = true) (hstop : digitRun tail = 0)
    (htail : matchHere r tail = some caps) :
    matchHere (clockPattern ++ r) (clockText h m s f ++ tail)
      = some (h :: m :: s :: f :: caps) := by
  have e : clockText h m s f ++ tail = h ++ 58 :: (m ++ 58 :: (s ++ 46 :: (f ++ tail))) := by
    simp [clockText]
  rw [e]
  show matchHere (.digits :: .lit 58 :: .digits :: .lit 58 :: .digits :: .anyChar :: .digits :: r) _
    = _
  refine matchHere_digits_append _ h (58 :: _) _ hh (digitRun_stop _ _ rfl) ?_
  rw [matchHere_lit]
  refine matchHere_digits_append _ m (58 :: _) _ hm (digitRun_stop _ _ rfl) ?_
  rw [matchHere_lit]
  refine matchHere_digits_append _ s (46 :: _) _ hs (digitRun_stop _ _ rfl) ?_
  rw [matchHere_anyChar _ 46 _ rfl]
  exact matchHere_digits_append _ _ _ _ hf hstop htail

theorem regexMatch_of_matchHere (re : Regex) (us : List Nat) (caps : List (List Nat))
    (h : matchHere re us = some caps) : regexMatch re us = some caps := by
  cases us with
  | nil => exact h
  | cons u us => simp [regexMatch, h]

theorem regexMatch_skip (re : Regex) (pre rest : List Nat)
    (h : noMatchBefore re pre rest = true) : regexMatch re (pre ++ rest) = regexMatch re rest := by
  induction pre with
  | nil => rfl
  | cons p pre ih =>
    rw [noMatchBefore, Bool.and_eq_true, Option.isNone_iff_eq_none] at h
    have h1 : matchHere re (p :: (pre ++ rest)) = none := h.1
    rw [List.cons_append, regexMatch, h1]
    exact ih h.2

theorem parseInt_digits (ds : List Nat) (h : isDigits ds = true) :
    parseInt (some ds) = JsNum.ofNat (decimalValue ds) := by
  unfold isDigits at h
  rw [Bool.and_eq_true] at h
  have hrun : digitRun ds = ds.length := by
    have := digitRun_append ds [] h.2
    simpa [digitRun] using this
  have hne : ds.length ≠ 0 := by
    cases ds with
    | nil => simp at h
    | cons d ds => simp
  simp only [parseInt, hrun, hne, if_false, List.take_length]

theorem decimalValue_le (h m s : List Nat) :
    decimalValue h ≤ clockMillis h m s ∧ decimalValue m ≤ clockMillis h m s
      ∧ decimalValue s ≤ clockMillis h m s := by
  unfold clockMillis
  omega

/-- The parser on a subject whose leftmost match is a clock reading between the literal
texts `before` and `after`. -/
theorem getDuration_clock (before after : List Nat) (pre h m s f post : List Nat)
    (hh : isDigits h = true) (hm : isDigits m = true) (hs : isDigits s = true)
    (hf : isDigits f = true) (hstop : digitRun (after ++ post) = 0)
    (hpre : noMatchBefore (before.map RegexItem.lit ++ (clockPattern ++ after.map RegexItem.lit))
      pre (before ++ (clockText h m s f ++ (after ++ post))) = true)
    (hr : clockMillis h m s < 2 ^ 53) :
    getDuration (before.map RegexItem.lit ++ (clockPattern ++ after.map RegexItem.lit))
        (pre ++ (before ++ (clockText h m s f ++ (after ++ post))))
      = JsNum.ofNat (clockMillis h m s) := by
  have hmatch : matchHere (before.map RegexItem.lit ++ (clockPattern ++ after.map RegexItem.lit))
      (before ++ (clockText h m s f ++ (after ++ post))) = some [h, m, s, f] := by
    rw [matchHere_literal]
    apply matchHere_clock _ _ _ _ _ _ _ hh hm hs hf hstop
    have := matchHere_literal after [] post
    rw [List.append_nil] at this
    rw [this]
    rfl
  unfold getDuration
  rw [regexMatch_skip _ _ _ hpre, regexMatch_of_matchHere _ _ _ hmatch]
  simp only [List.get?_cons_zero, List.get?_cons_succ]
  rw [parseInt_digits h hh, parseInt_digits m hm, parseInt_digits s hs]
  exact convertToMilliseconds_ofNat _ _ _ hr

theorem onStderrData_state (st : ProgressState) (data : List Nat) :
    (onStderrData st data).1
      = ⟨if st.totalDuration.isZero then getDuration durationRegex data else st.totalDuration,
         getDuration progressRegex data⟩ := by
  unfold onStderrData
  simp only []
  split_ifs <;> rfl

/-- A percentage is reported exactly when both durations of the new state are positive,
and it is `Math.ceil(currentProgress / totalDuration * 100)`. -/
theorem onStderrData_report (st : ProgressState) (data : List Nat) :
    (onStderrData st data).2
      = if ((onStderrData st data).1.totalDuration.isPositive
            && (onStderrData st data).1.currentProgress.isPositive) = true
        then some (percentage (onStderrData st data).1.currentProgress
          (onStderrData st data).1.totalDuration)
        else none := by
  rw [onStderrData_state]
  unfold onStderrData
  simp only []
  split_ifs <;> rfl

/-- C4, at the failing input. With a total duration of 100000 ms, the line
`time=0:00:07.00 bitrate=` gives an elapsed time of 7000 ms and the reported percentage
is 8, while the exact ceiling of `7000 * 100 / 100000` is 7: the quotient `0.07` is
rounded to a double, and its product with 100 lies above 7. -/
theorem percentage_above_exact_ceiling :
    onStderrData ⟨JsNum.ofNat 100000, .fin 0⟩ (utf16 "time=0:00:07.00 bitrate=")
      = (⟨JsNum.ofNat 100000, JsNum.ofNat 7000⟩, some (JsNum.ofNat 8))
    ∧ (7000 * 100 + (100000 - 1)) / 100000 = 7 := by
  decide!

/-- C5, as the code has it. For a clock reading `h:m:s.f` whose milliseconds
`(h*3600 + m*60 + s) * 1000` are below `2^53`: a line in which `h:m:s.f, start:` is the
leftmost match of the duration pattern, consumed while the total duration is 0, sets
the total duration to these milliseconds; a line in which `time=h:m:s.f bitrate=` is
the leftmost match of the progress pattern sets the elapsed time to them. The group `f`
has no part in the value. -/
theorem onStderrData_clock (st : ProgressState) (pre h m s f post : List Nat)
    (hh : isDigits h = true) (hm : isDigits m = true) (hs : isDigits s = true)
    (hf : isDigits f = true) (hr : clockMillis h m s < 2 ^ 53) :
    (st.totalDuration = .fin 0 →
      noMatchBefore durationRegex pre (clockText h m s f ++ (utf16 ", start:" ++ post)) = true →
      (onStderrData st (pre ++ (clockText h m s f ++ (utf16 ", start:" ++ post)))).1.totalDuration
        = JsNum.ofNat (clockMillis h m s)) ∧
    (noMatchBefore progressRegex pre
        (utf16 "time=" ++ (clockText h m s f ++ (utf16 " bitrate=" ++ post))) = true →
      (onStderrData st
        (pre ++ (utf16 "time=" ++ (clockText h m s f ++ (utf16 " bitrate=" ++ post))))).1.currentProgress
        = JsNum.ofNat (clockMillis h m s)) := by
  constructor
  · intro h0 hpre
    rw [onStderrData_state, h0]
    have := getDuration_clock [] (utf16 ", start:") pre h m s f post hh hm hs hf rfl hpre hr
    exact this
  · intro hpre
    rw [onStderrData_state]
    exact getDuration_clock (utf16 "time=") (utf16 " bitrate=") pre h m s f post hh hm hs hf rfl
      hpre hr

/-- The reading of the specification, in a line of the encoder's banner and in a line
of its statistics: `1:02:03.04` gives 3723000 ms. -/
theorem onStderrData_clock_witness :
    (onStderrData ProgressState.initial
        (utf16 "  Duration: " ++ (clockText (utf16 "1") (utf16 "02") (utf16 "03") (utf16 "04")
          ++ (utf16 ", start:" ++ utf16 " 0.000000, bitrate: 128 kb/s")))).1.totalDuration
      = JsNum.ofNat (clockMillis (utf16 "1") (utf16 "02") (utf16 "03")) ∧
    (onStderrData ProgressState.initial
        (utf16 "size=1kB " ++ (utf16 "time=" ++ (clockText (utf16 "1") (utf16 "02") (utf16 "03")
          (utf16 "04") ++ (utf16 " bitrate=" ++ utf16 "128.0kbits/s"))))).1.currentProgress
      = JsNum.ofNat (clockMillis (utf16 "1") (utf16 "02") (utf16 "03")) ∧
    clockMillis (utf16 "1") (utf16 "02") (utf16 "03") = 3723000 :=
  ⟨(onStderrData_clock ProgressState.initial (utf16 "  Duration: ") (utf16 "1") (utf16 "02")
      (utf16 "03") (utf16 "04") (utf16 " 0.000000, bitrate: 128 kb/s")
      (by decide) (by decide) (by decide) (by decide) (by decide)).1 rfl (by decide!),
   (onStderrData_clock ProgressState.initial (utf16 "size=1kB ") (utf16 "1") (utf16 "02")
      (utf16 "03") (utf16 "04") (utf16 "128.0kbits/s")
      (by decide) (by decide) (by decide) (by decide) (by decide)).2 (by decide!),
   by decide⟩

/-- C5, counterexample. The header `9007199254740993:00:00.00, start:` has
`h = 2^53 + 1`, which `parseInt` rounds to `2^53`: the total duration becomes
`2^53 * 3600000 = 32425917317067571200000`, not
`(h*3600 + m*60 + s) * 1000 = 32425917317067574800000`, whose nearest double is
another number still. -/
theorem onStderrData_clock_rounded :
    (onStderrData ProgressState.initial
        (utf16 "9007199254740993:00:00.00, start:")).1.totalDuration
      = JsNum.fin (32425917317067571200000 * JsNum.one) ∧
    clockMillis (utf16 "9007199254740993") (utf16 "00") (utf16 "00")
      = 32425917317067574800000 ∧
    JsNum.ofNat 32425917317067574800000 = JsNum.fin (32425917317067575394304 * JsNum.one) := by
  decide!

/-- C6, as the code has it. A line that matches neither pattern leaves the total duration
as it was, sets the elapsed time to 0 and reports no percentage. -/
theorem onStderrData_no_match (st : ProgressState) (line : List Nat)
    (hd : regexMatch durationRegex line = none) (hp : regexMatch progressRegex line = none) :
    onStderrData st line = (⟨st.totalDuration, .fin 0⟩, none) := by
  have h1 : getDuration durationRegex line = .fin 0 := by simp [getDuration, hd]
  have h2 : getDuration progressRegex line = .fin 0 := by simp [getDuration, hp]
  unfold onStderrData
  rw [h1, h2]
  cases htd : st.totalDuration with
  | fin k =>
    by_cases hk : k = 0
    · subst hk; rfl
    · simp [JsNum.isZero, JsNum.isPositive, hk]
  | inf => rfl
  | nan => rfl

/-- A line of the encoder's statistics without a time stamp, after a line with one. -/
theorem onStderrData_no_match_witness :
    onStderrData ⟨JsNum.ofNat 100000, JsNum.ofNat 5000⟩ (utf16 "frame=  125 fps= 25 q=28.0")
      = (⟨JsNum.ofNat 100000, .fin 0⟩, none) := by
  simpa using onStderrData_no_match ⟨JsNum.ofNat 100000, JsNum.ofNat 5000⟩
    (utf16 "frame=  125 fps= 25 q=28.0") (by decide!) (by decide!)

/-- C6, counterexample. In the state with a total duration of 100000 ms and an elapsed
time of 5000 ms, a line that matches neither pattern does not keep the elapsed time: it
becomes 0. -/
theorem onStderrData_resets_progress :
    regexMatch durationRegex (utf16 "frame=  125 fps= 25 q=28.0") = none ∧
    regexMatch progressRegex (utf16 "frame=  125 fps= 25 q=28.0") = none ∧
    (onStderrData ⟨JsNum.ofNat 100000, JsNum.ofNat 5000⟩
      (utf16 "frame=  125 fps= 25 q=28.0")).1.currentProgress = .fin 0 ∧
    JsNum.ofNat 5000 ≠ .fin 0 := by
  decide!

/-! ## The `close` handler and the binary resolution -/

theorem digitChar_toNat (k : Nat) (h : k < 10) : (Nat.digitChar k).toNat - 48 = k := by
  interval_cases k <;> rfl

theorem digitChar_head (k : Nat) (h : k < 10) :
    Nat.digitChar k ≠ 'n' ∧ Nat.digitChar k ≠ '-' := by
  interval_cases k <;> decide

theorem foldl_toDigitsCore (fuel n : Nat) (ds : List Char) (h : n < fuel) :
    (Nat.toDigitsCore 10 fuel n ds).foldl (fun a c => 10 * a + (c.toNat - 48)) 0
      = ds.foldl (fun a c => 10 * a + (c.toNat - 48)) n := by
  induction fuel generalizing n ds with
  | zero => omega
  | succ fuel ih =>
    unfold Nat.toDigitsCore
    simp only []
    have hd := digitChar_toNat (n % 10) (Nat.mod_lt _ (by norm_num))
    split_ifs with h0
    · have hn : n % 10 = n := by omega
      rw [List.foldl_cons, hd, hn]
      simp
    · rw [ih (n / 10) _ (by omega), List.foldl_cons, hd]
      congr 1
      omega

theorem digitsValue_repr (n : Nat) : digitsValue (Nat.repr n).data = n := by
  unfold digitsValue Nat.repr Nat.toDigits
  rw [List.asString]
  simp only []
  rw [foldl_toDigitsCore _ _ _ (Nat.lt_succ_self n)]
  rfl

theorem toDigitsCore_head (fuel n : Nat) (ds : List Char) :
    ∃ k tl, k < 10 ∧ Nat.toDigitsCore 10 (fuel + 1) n ds = Nat.digitChar k :: tl := by
  induction fuel generalizing n ds with
  | zero =>
    refine ⟨n % 10, ds, Nat.mod_lt _ (by norm_num), ?_⟩
    unfold Nat.toDigitsCore
    simp only []
    split_ifs <;> rfl
  | succ fuel ih =>
    unfold Nat.toDigitsCore
    simp only []
    split_ifs
    · exact ⟨n % 10, ds, Nat.mod_lt _ (by norm_num), rfl⟩
    · exact ih _ _

theorem repr_head (n : Nat) :
    ∃ k tl, k < 10 ∧ (Nat.repr n).data = Nat.digitChar k :: tl := by
  obtain ⟨k, tl, hk, h⟩ := toDigitsCore_head n n []
  exact ⟨k, tl, hk, h⟩

theorem readExitCode_text (code : Option Int) : readExitCode (exitCodeText code) = code := by
  cases code with
  | none => rfl
  | some i =>
    cases i with
    | ofNat m =>
      obtain ⟨k, tl, hk, h⟩ := repr_head m
      have hv := digitsValue_repr m
      have e : exitCodeText (some (Int.ofNat m)) = Nat.repr m := rfl
      rw [e]
      unfold readExitCode
      obtain ⟨h1, h2⟩ := digitChar_head k hk
      generalize Nat.digitChar k = c at h h1 h2
      rw [h] at hv ⊢
      split
      · next heq => exact absurd (List.cons.inj heq).1 h1
      · next heq => exact absurd (List.cons.inj heq).1 h2
      · rw [hv]
    | negSucc m =>
      have hv := digitsValue_repr (m + 1)
      have e : (exitCodeText (some (Int.negSucc m))).data = '-' :: (Nat.repr (m + 1)).data := rfl
      unfold readExitCode
      rw [e]
      simp only [hv, Nat.add_sub_cancel]

theorem exitCodeText_injective (c1 c2 : Option Int) (h : exitCodeText c1 = exitCodeText c2) :
    c1 = c2 := by
  rw [← readExitCode_text c1, ← readExitCode_text c2, h]

theorem closeErrorMessage_injective (c1 c2 : Option Int)
    (h : closeErrorMessage c1 = closeErrorMessage c2) : c1 = c2 := by
  apply exitCodeText_injective
  unfold closeErrorMessage at h
  have h2 := congrArg String.data h
  rw [String.data_append, String.data_append] at h2
  exact String.ext (List.append_cancel_left h2)

/-- C7. For every job and every exit code, on the pending promise of the invocation: a
code of 0 calls `onComplete(job)` when `onComplete` is supplied as a function, and
fulfils the promise with the job it was given; any other code (`null` included) rejects
the promise with an error whose message ends with the text of the code, and calls
nothing; and the message determines the code. -/
theorem onClose_outcome (job : Job) (o : EncodeOptions) (code : Option Int) :
    (code = some 0 →
      onClose job o code .pending
        = ⟨.fulfilled job, if o.onComplete = .function then [job] else []⟩) ∧
    (code ≠ some 0 →
      onClose job o code .pending
        = ⟨.rejected (.error
            ("Error in action-encode module (ffmpeg) code : " ++ exitCodeText code)), []⟩) ∧
    (∀ other : Option Int, closeErrorMessage other = closeErrorMessage code → other = code) := by
  refine ⟨?_, ?_, fun other h => closeErrorMessage_injective other code h⟩
  · intro h
    subst h
    rfl
  · intro h
    unfold onClose
    rw [if_pos h]
    rfl

/-- The two ways a process closes, with `onComplete` supplied: code 0 and code 1. -/
theorem onClose_outcome_witness :
    onClose sampleJob notifyingOptions (some 0) .pending = ⟨.fulfilled sampleJob, [sampleJob]⟩ ∧
    onClose sampleJob notifyingOptions (some 1) .pending
      = ⟨.rejected (.error "Error in action-encode module (ffmpeg) code : 1"), []⟩ :=
  ⟨(onClose_outcome sampleJob notifyingOptions (some 0)).1 rfl,
   (onClose_outcome sampleJob notifyingOptions (some 1)).2.1 (by decide)⟩

/-- C10. Binary resolution is first match wins: an override path that exists is the
result, with no download, whether or not the cache file exists; otherwise a cache file
`<workpath>/ffmpeg-<version>` (with `.exe` on win32) that exists is the result, with no
download; and when neither exists a download of the release URL is started. -/
theorem getBinary_first_match (P : PathModule) (w : World) (settings : Settings)
    (d : Download) :
    (∀ p, w.override = some p → w.fileExists p = true →
      getBinary P w settings d = ⟨.fulfilled p, [], []⟩) ∧
    (existsSync w w.override = false → w.fileExists (cachePath P w settings) = true →
      getBinary P w settings d = ⟨.fulfilled (cachePath P w settings), [], []⟩) ∧
    (existsSync w w.override = false → w.fileExists (cachePath P w settings) = false →
      (getBinary P w settings d).fetched = [binaryUrl w]) ∧
    cachePath P w settings
      = P.join settings.workpath
          ("ffmpeg-" ++ w.version ++ (if w.platform = "win32" then ".exe" else "")) := by
  refine ⟨?_, ?_, ?_, rfl⟩
  · intro p hp he
    simp [getBinary, existsSync, hp, he]
  · intro h1 h2
    have h3 : existsSync w (some (cachePath P w settings)) = true := h2
    unfold getBinary
    simp only [h1, h3, Bool.false_eq_true, if_false, if_true]
  · intro h1 h2
    have h3 : existsSync w (some (cachePath P w settings)) = false := h2
    unfold getBinary
    simp only [h1, h3, Bool.false_eq_true, if_false]

/-- The three cases of the resolution on three hosts. -/
theorem getBinary_first_match_witness :
    getBinary posixPath bothPresent sampleSettings .finished
      = ⟨.fulfilled "/usr/bin/ffmpeg", [], []⟩ ∧
    getBinary posixPath cachedOnly sampleSettings .finished
      = ⟨.fulfilled "/cache/ffmpeg-b4.2.2.exe", [], []⟩ ∧
    (getBinary posixPath nothingPresent sampleSettings .finished).fetched
      = ["https://github.com/eugeneware/ffmpeg-static/releases/download/b4.2.2/linux-x64"] :=
  ⟨(getBinary_first_match posixPath bothPresent sampleSettings .finished).1
      "/usr/bin/ffmpeg" rfl (by decide),
   (getBinary_first_match posixPath cachedOnly sampleSettings .finished).2.1 rfl (by decide),
   (getBinary_first_match posixPath nothingPresent sampleSettings .finished).2.2.1 rfl rfl⟩

/-- The example of the specification: with a total duration of 100000 ms, the line
`time=0:00:10.00 bitrate=` reports 10. -/
theorem percentage_spec_example :
    (onStderrData ⟨JsNum.ofNat 100000, .fin 0⟩ (utf16 "time=0:00:10.00 bitrate=")).2
      = some (JsNum.ofNat 10) := by
  decide!

/-! ## Defaults of the paths, failed downloads and the latch of the total duration -/

/-- C13. When `input` is unspecified (absent or the empty string) the input is the output
artifact of the job, `job.output`, resolved like a supplied input: unchanged if absolute,
joined with the working directory of the job otherwise. Where an output is given, so that
a sequence is returned, it is the value of `-i` as long as `params` does not redefine `-i`. -/
theorem constructParams_default_input (P : PathModule) (job : Job) (o : EncodeOptions)
    (p : String) (hi : o.input = none ∨ o.input = some "") (hj : job.output = some p) :
    resolveInput P job o = .ok (if P.isAbsolute p then p else P.join job.workpath p) ∧
    ∀ out, o.output = some out →
      ∃ xs, constructParams P job o = .ok xs ∧
        ("-i" ∉ paramKeys o →
          argValue "-i" xs = some (if P.isAbsolute p then p else P.join job.workpath p)) := by
  have hin : resolveInput P job o
      = .ok (if P.isAbsolute p then p else P.join job.workpath p) := by
    rcases hi with h | h <;> simp [resolveInput, resolvePath, jsOr, h, hj]
  refine ⟨hin, ?_⟩
  intro out ho
  have hout : resolveOutput P job o
      = .ok (if P.isAbsolute out then out else P.join job.workpath out) := by
    simp [resolveOutput, resolvePath, ho]
  refine ⟨_, constructParams_ok P job o _ _ hin hout, ?_⟩
  intro h
  rw [paramKeys_eq] at h
  exact argValue_merge_input _ _ _ _ h

/-- The default input of two jobs: a relative artifact is joined with the working
directory, an absolute one is used as it is. -/
theorem constructParams_default_input_witness :
    (∃ xs, constructParams posixPath sampleJob (sampleOptions "mp3") = .ok xs ∧
      argValue "-i" xs = some "/work/job-1/result.avi") ∧
    (∃ xs, constructParams posixPath renderedJob (sampleOptions "mp3") = .ok xs ∧
      argValue "-i" xs = some "/renders/job-2/result.mov") :=
  ⟨((constructParams_default_input posixPath sampleJob (sampleOptions "mp3")
      "result.avi" (Or.inl rfl) rfl).2 "encoded.out" rfl).elim
      fun xs h => ⟨xs, h.1, h.2 (by decide)⟩,
   ((constructParams_default_input posixPath renderedJob (sampleOptions "mp3")
      "/renders/job-2/result.mov" (Or.inl rfl) rfl).2 "encoded.out" rfl).elim
      fun xs h => ⟨xs, h.1, h.2 (by decide)⟩⟩

/-- C14, as the code has it. When `output` is unspecified `constructParams` does not
succeed: `path.isAbsolute(undefined)` throws, whatever the job and the other options
are. The output artifact of the job is a default for the input only. -/
theorem constructParams_output_required (P : PathModule) (job : Job) (o : EncodeOptions)
    (ho : o.output = none) : constructParams P job o = .error (.invalidArgType "path") := by
  unfold constructParams
  have hout : resolveOutput P job o = .error (.invalidArgType "path") := by
    simp [resolveOutput, resolvePath, ho]
  rw [hout]
  unfold resolveInput resolvePath
  cases jsOr o.input job.output <;> rfl

/-- Without `output` the construction throws also when the input is given and absolute. -/
theorem constructParams_output_required_witness :
    constructParams posixPath renderedJob inputOnlyOptions = .error (.invalidArgType "path") :=
  constructParams_output_required posixPath renderedJob inputOnlyOptions rfl

/-- C14, counterexample. The sample job has the output artifact `result.avi`; with
`output` unspecified `constructParams` throws and returns no sequence, so no `-y` value
is produced from `job.output`. -/
theorem constructParams_no_default_output :
    sampleJob.output = some "result.avi" ∧
    constructParams posixPath sampleJob noOutputOptions = .error (.invalidArgType "path") := by
  decide

/-- While the promise of `getBinary` is pending no child process is spawned and the
promise of the invocation stays pending. -/
theorem execute_pending (P : PathModule) (w : World) (settings : Settings) (job : Job)
    (o : EncodeOptions) (d : Download) (events : List ChildEvent) (params : List String)
    (hp : constructParams P job o = .ok params)
    (hb : (getBinary P w settings d).promise = .pending) :
    execute P w settings job o d events = Invocation.start .pending := by
  unfold execute
  rw [hp]
  simp only [hb]

/-- C15, at the failing input. With no override, no cache file and a response that is
not ok, `fetch` was called and the promise of `getBinary` is pending, not rejected; the
promise of the invocation is pending as well. -/
theorem getBinary_not_ok_pending :
    getBinary posixPath nothingPresent sampleSettings .notOk
      = ⟨.pending,
         ["https://github.com/eugeneware/ffmpeg-static/releases/download/b4.2.2/linux-x64"],
         []⟩ ∧
    (execute posixPath nothingPresent sampleSettings sampleJob (sampleOptions "mp4") .notOk
      [.close (some 0)]).promise = .pending := by
  decide

/-- The sibling path: an error of the response body or of the write stream rejects the
promise of `getBinary`, and the invocation fails with the wrapped error. -/
theorem getBinary_stream_error_rejects :
    (getBinary posixPath nothingPresent sampleSettings .bodyError).promise
      = .rejected (.error "[object Object]") ∧
    (execute posixPath nothingPresent sampleSettings sampleJob (sampleOptions "mp4") .writeError
      []).promise
      = .rejected (.error "Error in action-encode module (ffmpeg) Error: [object Object]") := by
  decide

theorem isZero_of_isPositive (x : JsNum) (h : x.isPositive = true) : x.isZero = false := by
  cases x with
  | fin k =>
    have hk : 0 < k := by simpa [JsNum.isPositive] using h
    simp [JsNum.isZero]
    omega
  | inf => rfl
  | nan => rfl

theorem isZero_iff (x : JsNum) : x.isZero = true ↔ x = .fin 0 := by
  cases x <;> simp [JsNum.isZero]

theorem onStderrData_total_of_positive (st : ProgressState) (data : List Nat)
    (h : st.totalDuration.isPositive = true) :
    (onStderrData st data).1.totalDuration = st.totalDuration := by
  rw [onStderrData_state, isZero_of_isPositive _ h]
  rfl

/-- C16. The total duration is latched: once it is positive no later chunk changes it,
whatever the chunks hold; and while it is 0 every chunk is searched for a duration
header, whose value becomes the total duration. -/
theorem totalDuration_latched (st : ProgressState) (chunks : List (List Nat)) :
    (st.totalDuration.isPositive = true →
      (runChunks st chunks).1.totalDuration = st.totalDuration) ∧
    (∀ line, st.totalDuration = .fin 0 →
      (onStderrData st line).1.totalDuration = getDuration durationRegex line) := by
  constructor
  · intro h
    induction chunks generalizing st with
    | nil => rfl
    | cons c cs ih =>
      have h1 := onStderrData_total_of_positive st c h
      show (runChunks (onStderrData st c).1 cs).1.totalDuration = st.totalDuration
      rw [ih (onStderrData st c).1 (by rw [h1]; exact h), h1]
  · intro line h0
    rw [onStderrData_state, h0]
    rfl

/-- A later header does not replace a known total duration, and the initial state takes
the total duration from the first header. -/
theorem totalDuration_latched_witness :
    (runChunks knownTotal
        [utf16 "time=0:00:05.00 bitrate=", utf16 "Duration: 0:00:20.00, start:"]).1.totalDuration
      = knownTotal.totalDuration ∧
    (onStderrData ProgressState.initial (utf16 "Duration: 0:00:20.00, start:")).1.totalDuration
      = getDuration durationRegex (utf16 "Duration: 0:00:20.00, start:") ∧
    getDuration durationRegex (utf16 "Duration: 0:00:20.00, start:") = JsNum.ofNat 20000 :=
  ⟨(totalDuration_latched knownTotal
      [utf16 "time=0:00:05.00 bitrate=", utf16 "Duration: 0:00:20.00, start:"]).1 (by decide!),
   (totalDuration_latched ProgressState.initial []).2 _ rfl,
   by decide!⟩

/-! ## The flags of the merged object -/

theorem flagsOf_flatMap (es : List (String × String)) :
    flagsOf (es.flatMap flagPair) = es.map Prod.fst := by
  induction es with
  | nil => rfl
  | cons e es ih =>
    rw [List.flatMap_cons]
    show flagsOf (e.1 :: e.2 :: es.flatMap flagPair) = _
    rw [flagsOf, ih, List.map_cons]

theorem flagsOf_flatten (o : JsObject) : flagsOf (flattenParams o) = o.keys := by
  rw [flattenParams_eq, ← List.flatMap_append, flagsOf_flatMap]
  rfl

theorem length_flatten (o : JsObject) : (flattenParams o).length = 2 * o.keys.length := by
  rw [flattenParams_eq, ← List.flatMap_append]
  unfold JsObject.keys JsObject.entries
  generalize o.elems ++ o.props = es
  induction es with
  | nil => rfl
  | cons e es ih =>
    rw [List.flatMap_cons]
    show (e.1 :: e.2 :: es.flatMap flagPair).length = _
    rw [List.length_cons, List.length_cons, ih, List.map_cons, List.length_cons]
    omega

theorem mem_keys_upsert (k v k2 : String) (l : List (String × String)) :
    k2 ∈ (upsert k v l).map Prod.fst ↔ k2 = k ∨ k2 ∈ l.map Prod.fst := by
  rw [keys_upsert]
  split_ifs with h
  · constructor
    · exact Or.inr
    · rintro (h2 | h2)
      · exact h2 ▸ h
      · exact h2
  · simp [or_comm]

theorem mem_keys_upsertAll (k : String) (l us : List (String × String)) :
    k ∈ (upsertAll l us).map Prod.fst ↔ k ∈ l.map Prod.fst ∨ k ∈ us.map Prod.fst := by
  induction us generalizing l with
  | nil => simp [upsertAll]
  | cons u us ih =>
    show k ∈ (upsertAll (upsert u.1 u.2 l) us).map Prod.fst ↔ _
    rw [ih, mem_keys_upsert, List.map_cons, List.mem_cons]
    tauto

theorem mem_keys_insertElem (k v k2 : String) (l : List (String × String)) :
    k2 ∈ (insertElem k v l).map Prod.fst ↔ k2 = k ∨ k2 ∈ l.map Prod.fst := by
  induction l with
  | nil => simp [insertElem]
  | cons e l ih =>
    obtain ⟨a, b⟩ := e
    unfold insertElem
    split_ifs with h1 h2
    · subst h1; simp
    · simp
    · simp only [List.map_cons, List.mem_cons, ih]
      tauto

theorem mem_keys_insertAll (k : String) (l us : List (String × String)) :
    k ∈ (insertAll l us).map Prod.fst ↔ k ∈ l.map Prod.fst ∨ k ∈ us.map Prod.fst := by
  induction us generalizing l with
  | nil => simp [insertAll]
  | cons u us ih =>
    show k ∈ (insertAll (insertElem u.1 u.2 l) us).map Prod.fst ↔ _
    rw [ih, mem_keys_insertElem, List.map_cons, List.mem_cons]
    tauto

theorem arrayIndex_proto : arrayIndex? "__proto__" = none := by decide

theorem mem_keys_parts (k : String) (es : List (String × String)) :
    (k ∈ (indexPart es).map Prod.fst ∨ k ∈ (namedPart es).map Prod.fst)
      ↔ (k ∈ es.map Prod.fst ∧ k ≠ "__proto__") := by
  simp only [indexPart, namedPart, List.mem_map, List.mem_filter, isNamedKey]
  constructor
  · rintro (⟨e, ⟨he, hp⟩, rfl⟩ | ⟨e, ⟨he, hp⟩, rfl⟩)
    · refine ⟨⟨e, he, rfl⟩, fun h => ?_⟩
      rw [h, arrayIndex_proto] at hp
      cases hp
    · refine ⟨⟨e, he, rfl⟩, ?_⟩
      simp at hp
      exact hp.2
  · rintro ⟨⟨e, he, rfl⟩, hne⟩
    cases h : arrayIndex? e.1 with
    | some n => exact Or.inl ⟨e, ⟨he, by simp [h]⟩, rfl⟩
    | none => exact Or.inr ⟨e, ⟨he, by simp [h, hne]⟩, rfl⟩

/-- The flags of the merged object: the flags of the template, the keys of `params`
other than `__proto__`, and `-y`. -/
theorem mem_keys_merge (k : String) (preset : Option String) (i out : String)
    (params : Option JsObject) :
    k ∈ (mergeParams preset i out params).keys
      ↔ k ∈ (presetTemplate preset i).map Prod.fst ∨ k = "-y"
        ∨ (k ∈ (paramEntries params).map Prod.fst ∧ k ≠ "__proto__") := by
  rw [mergeParams_eq]
  unfold JsObject.keys JsObject.entries
  simp only [List.map_append, List.mem_append]
  rw [mem_keys_insertAll, mem_keys_upsert, mem_keys_upsertAll, ← mem_keys_parts]
  simp only [List.map_nil, List.not_mem_nil, false_or]
  tauto

theorem presetTemplate_other (preset : Option String) (i : String)
    (h : isNamedPreset preset = false) : presetTemplate preset i = [("-i", i)] := by
  unfold isNamedPreset at h
  simp only [Bool.or_eq_false_iff, decide_eq_false_iff_not] at h
  obtain ⟨⟨⟨⟨⟨h1, h2⟩, h3⟩, h4⟩, h5⟩, h6⟩ := h
  simp [presetTemplate, h1, h2, h3, h4, h5, h6]

/-- C12, as the code has it. For every preset outside the six named ones (an absent
preset included) and every user `params`, no template default is added: the flags of
the result are `-i`, `-y` and the keys of `params` other than `__proto__`; and with no
`params` the result is `-i`, the resolved input, `-y`, the resolved output. -/
theorem constructParams_unrecognized (P : PathModule) (job : Job) (o : EncodeOptions)
    (input output : String)
    (hin : resolveInput P job o = .ok input) (hout : resolveOutput P job o = .ok output)
    (hpre : isNamedPreset o.preset = false) :
    ∃ xs, constructParams P job o = .ok xs ∧
      (∀ k, k ∈ flagsOf xs ↔ k = "-i" ∨ k = "-y" ∨ (k ∈ paramKeys o ∧ k ≠ "__proto__")) ∧
      ((o.params = none ∨ o.params = some JsObject.empty) → xs = ["-i", input, "-y", output]) := by
  refine ⟨_, constructParams_ok P job o input output hin hout, ?_, ?_⟩
  · intro k
    rw [flagsOf_flatten, mem_keys_merge, presetTemplate_other _ _ hpre, paramKeys_eq]
    simp
  · intro h
    have e : mergeParams o.preset input output o.params = mergeParams o.preset input output none := by
      rcases h with h | h <;> rw [h]
      rfl
    rw [e, flatten_merge_none, presetTemplate_other _ _ hpre]
    rfl

/-- An unknown preset with one user flag, and no preset with no `params`. -/
theorem constructParams_unrecognized_witness :
    constructParams posixPath sampleJob unknownPresetOptions
      = .ok ["-i", "/work/job-1/result.avi", "-acodec", "flac", "-y", "/work/job-1/encoded.out"] ∧
    (∃ xs, constructParams posixPath sampleJob unknownPresetOptions = .ok xs ∧
      ∀ k, k ∈ flagsOf xs ↔ k = "-i" ∨ k = "-y"
        ∨ (k ∈ paramKeys unknownPresetOptions ∧ k ≠ "__proto__")) :=
  ⟨by decide,
   (constructParams_unrecognized posixPath sampleJob unknownPresetOptions
      "/work/job-1/result.avi" "/work/job-1/encoded.out" (by decide) (by decide) (by decide)).elim
      fun xs h => ⟨xs, h.1, h.2.1⟩⟩

/-- C12, counterexample. With no preset and `params` that have the own key `__proto__`
(the value of `JSON.parse('{"__proto__": "x"}')`), the key `__proto__` is a key of
`params` and is not a flag of the result, which is only the input and the output pair. -/
theorem constructParams_proto_not_a_flag :
    "__proto__" ∈ paramKeys protoOnlyOptions ∧
    constructParams posixPath sampleJob protoOnlyOptions
      = .ok ["-i", "/work/job-1/result.avi", "-y", "/work/job-1/encoded.out"] := by
  decide

/-! ## The pairs of the result -/

theorem insertElem_pairwise (k v : String) (l : List (String × String))
    (h : l.Pairwise fun a b => elemIndex a.1 ≤ elemIndex b.1 ∧ a.1 ≠ b.1) :
    (insertElem k v l).Pairwise fun a b => elemIndex a.1 ≤ elemIndex b.1 ∧ a.1 ≠ b.1 := by
  induction l with
  | nil => simp [insertElem]
  | cons e l ih =>
    obtain ⟨a, b⟩ := e
    rw [List.pairwise_cons] at h
    unfold insertElem
    split_ifs with h1 h2
    · subst h1
      exact List.pairwise_cons.2 ⟨h.1, h.2⟩
    · have h2' : elemIndex k < elemIndex a := h2
      refine List.pairwise_cons.2 ⟨?_, List.pairwise_cons.2 h⟩
      intro e he
      rcases List.mem_cons.1 he with rfl | he
      · exact ⟨Nat.le_of_lt h2', fun hk => h1 hk.symm⟩
      · have h3 : elemIndex a ≤ elemIndex e.1 := (h.1 e he).1
        refine ⟨Nat.le_trans (Nat.le_of_lt h2') h3, fun hk => ?_⟩
        have hk' : k = e.1 := hk
        rw [← hk'] at h3
        omega
    · have h2' : ¬ elemIndex k < elemIndex a := h2
      refine List.pairwise_cons.2 ⟨?_, ih h.2⟩
      intro e he
      rcases mem_insertElem he with rfl | he
      · exact ⟨Nat.le_of_not_lt h2', h1⟩
      · exact h.1 e he

theorem insertAll_pairwise (l us : List (String × String))
    (h : l.Pairwise fun a b => elemIndex a.1 ≤ elemIndex b.1 ∧ a.1 ≠ b.1) :
    (insertAll l us).Pairwise fun a b => elemIndex a.1 ≤ elemIndex b.1 ∧ a.1 ≠ b.1 := by
  induction us generalizing l with
  | nil => exact h
  | cons u us ih => exact ih _ (insertElem_pairwise u.1 u.2 l h)

theorem nodup_keys_insertAll (us : List (String × String)) :
    ((insertAll [] us).map Prod.fst).Nodup := by
  have h := insertAll_pairwise [] us List.Pairwise.nil
  rw [List.Nodup, List.pairwise_map]
  exact h.imp fun hab => hab.2

theorem nodup_keys_upsertAll (l us : List (String × String))
    (h : (l.map Prod.fst).Nodup) : ((upsertAll l us).map Prod.fst).Nodup := by
  induction us generalizing l with
  | nil => exact h
  | cons u us ih => exact ih _ (nodup_keys_upsert u.1 u.2 l h)

theorem presetTemplate_keys (preset : Option String) (i : String) :
    ((presetTemplate preset i).map Prod.fst).Nodup
      ∧ (∀ k ∈ (presetTemplate preset i).map Prod.fst, isNamedKey k = true)
      ∧ "-i" ∈ (presetTemplate preset i).map Prod.fst
      ∧ "-y" ∉ (presetTemplate preset i).map Prod.fst := by
  unfold presetTemplate
  split_ifs <;> simp only [List.map_cons, List.map_nil] <;>
    exact ⟨by decide, by decide, by decide, by decide⟩

/-- The keys of the merged object are pairwise distinct. -/
theorem nodup_keys_merge (preset : Option String) (i out : String) (params : Option JsObject) :
    (mergeParams preset i out params).keys.Nodup := by
  rw [mergeParams_eq]
  unfold JsObject.keys JsObject.entries
  rw [List.map_append]
  refine List.Nodup.append (nodup_keys_insertAll _) ?_ ?_
  · exact nodup_keys_upsert _ _ _ (nodup_keys_upsertAll _ _ (presetTemplate_keys preset i).1)
  · intro k h1 h2
    rw [mem_keys_insertAll] at h1
    rw [mem_keys_upsert, mem_keys_upsertAll] at h2
    have hidx : (arrayIndex? k).isSome = true := by
      rcases h1 with h1 | h1
      · cases h1
      · obtain ⟨e, he, rfl⟩ := List.mem_map.1 h1
        exact (List.mem_filter.1 he).2
    have hnamed : isNamedKey k = true := by
      rcases h2 with h2 | h2 | h2
      · rw [h2]; decide
      · exact (presetTemplate_keys preset i).2.1 k h2
      · obtain ⟨e, he, rfl⟩ := List.mem_map.1 h2
        exact (List.mem_filter.1 he).2
    unfold isNamedKey at hnamed
    cases h : arrayIndex? k <;> simp [h] at hidx hnamed

theorem length_eq_of_same_members (l1 l2 : List String) (h1 : l1.Nodup)
    (h : ∀ k, k ∈ l1 ↔ k ∈ l2) : l1.length = l2.dedup.length := by
  apply List.Perm.length_eq
  rw [List.perm_ext_iff_of_nodup h1 (List.nodup_dedup l2)]
  intro k
  rw [List.mem_dedup]
  exact h k

theorem lookup_insertElem (k v k2 : String) (l : List (String × String)) :
    (insertElem k v l).lookup k2 = if k2 = k then some v else l.lookup k2 := by
  induction l with
  | nil =>
    by_cases h : k2 = k
    · subst h; simp [insertElem, lookup_cons_self]
    · simp [insertElem, lookup_cons_ne _ _ h, h]
  | cons e l ih =>
    obtain ⟨a, b⟩ := e
    unfold insertElem
    by_cases h1 : a = k
    · subst h1
      rw [if_pos rfl]
      by_cases h3 : k2 = a
      · subst h3; rw [if_pos rfl, lookup_cons_self]
      · rw [if_neg h3, lookup_cons_ne _ _ h3, lookup_cons_ne _ _ h3]
    · rw [if_neg h1]
      by_cases h2 : (arrayIndex? k).getD 0 < (arrayIndex? a).getD 0
      · rw [if_pos h2]
        by_cases h3 : k2 = k
        · subst h3; rw [if_pos rfl, lookup_cons_self]
        · rw [if_neg h3, lookup_cons_ne _ _ h3]
      · rw [if_neg h2]
        by_cases h3 : k2 = a
        · subst h3
          have : ¬ k2 = k := h1
          rw [lookup_cons_self, lookup_cons_self, if_neg this]
        · rw [lookup_cons_ne _ _ h3, lookup_cons_ne _ _ h3, ih]

theorem lastValue_cons (k : String) (u : String × String) (us : List (String × String)) :
    lastValue k (u :: us) = (lastValue k us).or (if k = u.1 then some u.2 else none) := by
  unfold lastValue
  rw [List.reverse_cons, List.lookup_append]
  congr 1
  by_cases h : k = u.1
  · rw [if_pos h, h]; exact lookup_cons_self _ _ _
  · rw [if_neg h]; exact (lookup_cons_ne _ _ h).trans rfl

theorem or_assoc_ite (a : Option String) (c : Prop) [Decidable c] (v : String)
    (b : Option String) :
    (a.or (if c then some v else none)).or b = a.or (if c then some v else b) := by
  cases a <;> by_cases h : c <;> simp [h]

theorem lookup_upsertAll (k : String) (l us : List (String × String)) :
    (upsertAll l us).lookup k = (lastValue k us).or (l.lookup k) := by
  induction us generalizing l with
  | nil => simp [upsertAll, lastValue]
  | cons u us ih =>
    show (upsertAll (upsert u.1 u.2 l) us).lookup k = _
    rw [ih, lookup_upsert, lastValue_cons, or_assoc_ite]

theorem lookup_insertAll (k : String) (l us : List (String × String)) :
    (insertAll l us).lookup k = (lastValue k us).or (l.lookup k) := by
  induction us generalizing l with
  | nil => simp [insertAll, lastValue]
  | cons u us ih =>
    show (insertAll (insertElem u.1 u.2 l) us).lookup k = _
    rw [ih, lookup_insertElem, lastValue_cons, or_assoc_ite]

theorem lastValue_filter (k : String) (p : String → Bool) (us : List (String × String)) :
    lastValue k (us.filter fun kv => p kv.1) = if p k = true then lastValue k us else none := by
  induction us with
  | nil => simp [lastValue]
  | cons u us ih =>
    by_cases hu : p u.1 = true
    · rw [List.filter_cons_of_pos (by simpa using hu), lastValue_cons, lastValue_cons, ih]
      by_cases hk : p k = true
      · simp [hk]
      · have : ¬ k = u.1 := fun h => hk (h ▸ hu)
        simp [hk, this]
    · rw [List.filter_cons_of_neg (by simpa using hu), lastValue_cons, ih]
      by_cases hk : p k = true
      · have : ¬ k = u.1 := fun h => hu (h ▸ hk)
        simp [hk, this]
      · simp [hk]

/-- The value of a key other than `__proto__` in the merged object: the output path for
`-y`, or else the value of the last write of `params`, or else the default of the
template. -/
theorem lookup_merge (k : String) (hk : k ≠ "__proto__") (preset : Option String)
    (i out : String) (params : Option JsObject) :
    (mergeParams preset i out params).entries.lookup k
      = if k = "-y" then some out
        else (lastValue k (paramEntries params)).or ((presetTemplate preset i).lookup k) := by
  rw [mergeParams_eq]
  unfold JsObject.entries
  simp only []
  rw [List.lookup_append, lookup_insertAll, lookup_upsert, lookup_upsertAll]
  unfold indexPart namedPart
  rw [lastValue_filter k fun k => (arrayIndex? k).isSome, lastValue_filter k isNamedKey]
  by_cases hy : k = "-y"
  · subst hy
    have : arrayIndex? "-y" = none := by decide
    simp [this]
  · cases h : arrayIndex? k with
    | some n => simp [isNamedKey, h, hy]
    | none => simp [isNamedKey, h, hk, hy]

/-- C17, as the code has it. For every preset and every user `params` the sequence has
the length `2 * n`, where `n` counts the distinct flags among the flags of the template,
the keys of `params` other than `__proto__`, `-i` and `-y`; the elements at the even
positions are pairwise distinct; and each of them is followed by the value written last
for it in the merge: the output path for `-y`, or else the last value that `params`
gives it, or else the default of the template. -/
theorem constructParams_pairs (P : PathModule) (job : Job) (o : EncodeOptions)
    (input output : String)
    (hin : resolveInput P job o = .ok input) (hout : resolveOutput P job o = .ok output) :
    ∃ xs, constructParams P job o = .ok xs ∧
      xs.length = 2 * (((presetTemplate o.preset input).map Prod.fst
          ++ (paramKeys o).filter (fun k => k != "__proto__") ++ ["-i", "-y"]).dedup).length ∧
      (flagsOf xs).Nodup ∧
      ∀ f ∈ flagsOf xs, argValue f xs
        = if f = "-y" then some output
          else (lastValue f (paramEntries o.params)).or
            ((presetTemplate o.preset input).lookup f) := by
  have hT := presetTemplate_keys o.preset input
  refine ⟨_, constructParams_ok P job o input output hin hout, ?_, ?_, ?_⟩
  · rw [length_flatten]
    congr 1
    apply length_eq_of_same_members _ _ (nodup_keys_merge _ _ _ _)
    intro k
    rw [mem_keys_merge, paramKeys_eq]
    simp only [List.mem_append, List.mem_filter, List.mem_cons, List.mem_singleton,
      List.not_mem_nil, or_false, bne_iff_ne, ne_eq]
    constructor
    · rintro (h | h | h)
      · exact Or.inl (Or.inl h)
      · exact Or.inr (Or.inr h)
      · exact Or.inl (Or.inr h)
    · rintro ((h | h) | h | h)
      · exact Or.inl h
      · exact Or.inr (Or.inr h)
      · exact Or.inl (h ▸ hT.2.2.1)
      · exact Or.inr (Or.inl h)
  · rw [flagsOf_flatten]
    exact nodup_keys_merge _ _ _ _
  · intro f hf
    rw [flagsOf_flatten, mem_keys_merge] at hf
    have hne : f ≠ "__proto__" := by
      rcases hf with h | h | h
      · intro h2
        have := hT.2.1 f h
        rw [h2] at this
        revert this
        decide
      · rw [h]; decide
      · exact h.2
    rw [argValue_flatten, lookup_merge f hne]

/-- The pairs at `tunedOptions`: nine distinct flags, eighteen elements. -/
theorem constructParams_pairs_witness :
    ∃ xs, constructParams posixPath sampleJob tunedOptions = .ok xs ∧ xs.length = 18 ∧
      (flagsOf xs).Nodup :=
  (constructParams_pairs posixPath sampleJob tunedOptions "/work/job-1/result.avi"
    "/work/job-1/encoded.out" (by decide) (by decide)).elim
    fun xs h => ⟨xs, h.1, h.2.1.trans (by decide), h.2.2.1⟩

/-- C17, counterexample. With the preset `mp4` and `params` that have the own key
`__proto__` the distinct flags among the template flags, the keys of `params`, `-i` and
`-y` are nine, and the sequence has sixteen elements, not eighteen. -/
theorem constructParams_length_proto :
    (((presetTemplate (some "mp4") "/work/job-1/result.avi").map Prod.fst
        ++ paramKeys protoMp4Options ++ ["-i", "-y"]).dedup).length = 9 ∧
    constructParams posixPath sampleJob protoMp4Options = .ok
      ["-i", "/work/job-1/result.avi", "-acodec", "aac", "-ab", "128k", "-ar", "44100",
       "-vcodec", "libx264", "-r", "25", "-pix_fmt", "yuv420p",
       "-y", "/work/job-1/encoded.out"] := by
  decide

/-! ## Chunks and lines -/

theorem findSome_congr {α β : Type} (xs : List α) (f g : α → Option β)
    (h : ∀ x ∈ xs, f x = g x) : xs.findSome? f = xs.findSome? g := by
  induction xs with
  | nil => rfl
  | cons x xs ih =>
    rw [List.findSome?_cons, List.findSome?_cons, h x (List.mem_cons_self _ _),
      ih fun y hy => h y (List.mem_cons_of_mem _ hy)]

theorem digitRun_lineFeed (l rest : List Nat) : digitRun (l ++ 10 :: rest) = digitRun l := by
  induction l with
  | nil => rfl
  | cons u l ih =>
    show (if isDigitUnit u = true then digitRun (l ++ 10 :: rest) + 1 else 0)
      = if isDigitUnit u = true then digitRun l + 1 else 0
    rw [ih]

theorem digitRun_le_length (l : List Nat) : digitRun l ≤ l.length := by
  induction l with
  | nil => exact Nat.le_refl 0
  | cons u l ih =>
    show (if isDigitUnit u = true then digitRun l + 1 else 0) ≤ l.length + 1
    split_ifs <;> omega

/-- A match of a pattern without a literal line feed does not reach beyond a line feed. -/
theorem matchHere_lineFeed (re : Regex) (l rest : List Nat) (h : lineFeedFree re = true) :
    matchHere re (l ++ 10 :: rest) = matchHere re l := by
  induction re generalizing l with
  | nil => simp [matchHere]
  | cons item r ih =>
    have hr : lineFeedFree r = true := by
      unfold lineFeedFree at h ⊢
      rw [List.all_cons, Bool.and_eq_true] at h
      exact h.2
    have hitem : item ≠ RegexItem.lit 10 := by
      unfold lineFeedFree at h
      rw [List.all_cons, Bool.and_eq_true] at h
      simpa using h.1
    cases item with
    | lit c =>
      have hc : ¬ 10 = c := fun hc => hitem (by rw [hc])
      cases l with
      | nil => simp [matchHere, hc]
      | cons u l => simp only [List.cons_append, matchHere, ih l hr]
    | anyChar =>
      cases l with
      | nil => simp [matchHere, isLineTerminator]
      | cons u l => simp only [List.cons_append, matchHere, ih l hr]
    | digits =>
      simp only [matchHere, digitRun_lineFeed]
      apply findSome_congr
      intro n hn
      have hn' : n + 1 ≤ l.length := by
        have := digitRun_le_length l
        simp only [List.mem_reverse, List.mem_range] at hn
        omega
      rw [List.drop_append_of_le_length hn', List.take_append_of_le_length hn', ih _ hr]

theorem regexMatch_nil (re : Regex) : regexMatch re [] = matchHere re [] := by
  rw [regexMatch]

theorem regexMatch_cons (re : Regex) (u : Nat) (us : List Nat) :
    regexMatch re (u :: us) = (matchHere re (u :: us)).or (regexMatch re us) := by
  conv_lhs => rw [regexMatch]
  cases matchHere re (u :: us) <;> rfl

theorem regexMatch_lineFeed (re : Regex) (l rest : List Nat) (h : lineFeedFree re = true) :
    regexMatch re (l ++ 10 :: rest) = (regexMatch re l).or (regexMatch re rest) := by
  induction l with
  | nil =>
    have h1 := matchHere_lineFeed re [] rest h
    rw [List.nil_append] at h1 ⊢
    rw [regexMatch_cons, h1, regexMatch_nil]
  | cons u l ih =>
    have h1 := matchHere_lineFeed re (u :: l) rest h
    rw [List.cons_append] at h1 ⊢
    rw [regexMatch_cons, h1, ih, regexMatch_cons]
    cases matchHere re (u :: l) <;> cases regexMatch re l <;> rfl

theorem patterns_lineFeedFree :
    lineFeedFree durationRegex = true ∧ lineFeedFree progressRegex = true ∧
    regexMatch durationRegex [] = none ∧ regexMatch progressRegex [] = none := by
  decide

theorem unlines_cons (l : List Nat) (ls : List (List Nat)) :
    unlines (l :: ls) = l ++ 10 :: unlines ls := by
  simp [unlines, List.flatMap_cons]

theorem unlines_append (a b : List (List Nat)) : unlines (a ++ b) = unlines a ++ unlines b := by
  simp [unlines, List.flatMap_append]

theorem isQuiet_iff (l : List Nat) :
    isQuiet l = true ↔ regexMatch durationRegex l = none ∧ regexMatch progressRegex l = none := by
  simp [isQuiet, Option.isNone_iff_eq_none]

theorem loudLines_cons (l : List Nat) (ls : List (List Nat)) :
    loudLines (l :: ls) = (if isQuiet l = true then 0 else 1) + loudLines ls := by
  unfold loudLines
  by_cases h : isQuiet l = true
  · simp [List.filter_cons, h]
  · simp [List.filter_cons, h]
    omega

/-- The text of lines that are all quiet matches neither pattern. -/
theorem regexMatch_unlines_quiet (ls : List (List Nat)) (h : loudLines ls = 0) :
    regexMatch durationRegex (unlines ls) = none ∧ regexMatch progressRegex (unlines ls) = none := by
  induction ls with
  | nil => exact ⟨patterns_lineFeedFree.2.2.1, patterns_lineFeedFree.2.2.2⟩
  | cons l ls ih =>
    rw [loudLines_cons] at h
    have hq : isQuiet l = true := by
      by_contra hq
      rw [if_neg hq] at h
      omega
    rw [if_pos hq, Nat.zero_add] at h
    have hl := (isQuiet_iff l).1 hq
    rw [unlines_cons, regexMatch_lineFeed _ _ _ patterns_lineFeedFree.1,
      regexMatch_lineFeed _ _ _ patterns_lineFeedFree.2.1, hl.1, hl.2, (ih h).1, (ih h).2]
    exact ⟨rfl, rfl⟩

theorem getDuration_congr (re : Regex) (d1 d2 : List Nat)
    (h : regexMatch re d1 = regexMatch re d2) : getDuration re d1 = getDuration re d2 := by
  unfold getDuration
  rw [h]

/-- The handler reads the total duration of the state and the two matches of the chunk,
and nothing else. -/
theorem onStderrData_congr (st1 st2 : ProgressState) (d1 d2 : List Nat)
    (ht : st1.totalDuration = st2.totalDuration)
    (hd : regexMatch durationRegex d1 = regexMatch durationRegex d2)
    (hp : regexMatch progressRegex d1 = regexMatch progressRegex d2) :
    onStderrData st1 d1 = onStderrData st2 d2 := by
  unfold onStderrData
  rw [ht, getDuration_congr _ _ _ hd, getDuration_congr _ _ _ hp]

theorem runChunks_cons (st : ProgressState) (c : List Nat) (cs : List (List Nat)) :
    runChunks st (c :: cs)
      = ((runChunks (onStderrData st c).1 cs).1,
         (onStderrData st c).2.toList ++ (runChunks (onStderrData st c).1 cs).2) := rfl

theorem runChunks_append (st : ProgressState) (xs ys : List (List Nat)) :
    runChunks st (xs ++ ys)
      = ((runChunks (runChunks st xs).1 ys).1,
         (runChunks st xs).2 ++ (runChunks (runChunks st xs).1 ys).2) := by
  induction xs generalizing st with
  | nil => rfl
  | cons x xs ih =>
    rw [List.cons_append, runChunks_cons, runChunks_cons, ih]
    simp only [List.append_assoc]

/-- Two runs from states with the same total duration report the same and end with the
same total duration. -/
theorem runChunks_congr (st1 st2 : ProgressState) (cs : List (List Nat))
    (h : st1.totalDuration = st2.totalDuration) :
    (runChunks st1 cs).2 = (runChunks st2 cs).2 ∧
    (runChunks st1 cs).1.totalDuration = (runChunks st2 cs).1.totalDuration := by
  cases cs with
  | nil => exact ⟨rfl, h⟩
  | cons c cs =>
    rw [runChunks_cons, runChunks_cons, onStderrData_congr st1 st2 c c h rfl rfl]
    exact ⟨rfl, rfl⟩

/-- Quiet lines report nothing and keep the total duration. -/
theorem runChunks_quiet (st : ProgressState) (ls : List (List Nat)) (h : loudLines ls = 0) :
    (runChunks st ls).2 = [] ∧ (runChunks st ls).1.totalDuration = st.totalDuration := by
  induction ls generalizing st with
  | nil => exact ⟨rfl, rfl⟩
  | cons l ls ih =>
    rw [loudLines_cons] at h
    have hq : isQuiet l = true := by
      by_contra hq
      rw [if_neg hq] at h
      omega
    rw [if_pos hq, Nat.zero_add] at h
    have hl := (isQuiet_iff l).1 hq
    have hstep := onStderrData_no_match st l hl.1 hl.2
    rw [runChunks_cons, hstep]
    exact ⟨(ih _ h).1, (ih _ h).2⟩

/-- A chunk of whole lines of which at most one matches a pattern is handled like its
lines, one at a time. -/
theorem runChunks_group (st : ProgressState) (g : List (List Nat)) (h : loudLines g ≤ 1) :
    (runChunks st g).2 = (onStderrData st (unlines g)).2.toList ∧
    (runChunks st g).1.totalDuration = (onStderrData st (unlines g)).1.totalDuration := by
  induction g generalizing st with
  | nil =>
    have hstep := onStderrData_no_match st [] patterns_lineFeedFree.2.2.1
      patterns_lineFeedFree.2.2.2
    have e : unlines [] = [] := rfl
    rw [e, hstep]
    exact ⟨rfl, rfl⟩
  | cons l ls ih =>
    rw [loudLines_cons] at h
    rw [unlines_cons, runChunks_cons]
    by_cases hq : isQuiet l = true
    · rw [if_pos hq, Nat.zero_add] at h
      have hl := (isQuiet_iff l).1 hq
      have hstep := onStderrData_no_match st l hl.1 hl.2
      have hchunk : onStderrData st (l ++ 10 :: unlines ls)
          = onStderrData ⟨st.totalDuration, .fin 0⟩ (unlines ls) := by
        apply onStderrData_congr _ _ _ _ rfl
        · rw [regexMatch_lineFeed _ _ _ patterns_lineFeedFree.1, hl.1]; rfl
        · rw [regexMatch_lineFeed _ _ _ patterns_lineFeedFree.2.1, hl.2]; rfl
      rw [hstep, hchunk]
      exact ⟨(ih _ h).1, (ih _ h).2⟩
    · rw [if_neg hq] at h
      have h0 : loudLines ls = 0 := by omega
      have hrest := regexMatch_unlines_quiet ls h0
      have hchunk : onStderrData st (l ++ 10 :: unlines ls) = onStderrData st l := by
        apply onStderrData_congr _ _ _ _ rfl
        · rw [regexMatch_lineFeed _ _ _ patterns_lineFeedFree.1, hrest.1]
          cases regexMatch durationRegex l <;> rfl
        · rw [regexMatch_lineFeed _ _ _ patterns_lineFeedFree.2.1, hrest.2]
          cases regexMatch progressRegex l <;> rfl
      have hquiet := runChunks_quiet (onStderrData st l).1 ls h0
      rw [hchunk, hquiet.1, hquiet.2, List.append_nil]
      exact ⟨rfl, rfl⟩

/-- Chunks of whole lines, each with at most one line that matches a pattern, are
handled like the lines of all chunks, one at a time. -/
theorem runChunks_groups (st : ProgressState) (groups : List (List (List Nat)))
    (h : ∀ g ∈ groups, loudLines g ≤ 1) :
    (runChunks st (groups.map unlines)).2 = (runChunks st groups.flatten).2 ∧
    (runChunks st (groups.map unlines)).1.totalDuration
      = (runChunks st groups.flatten).1.totalDuration := by
  induction groups generalizing st with
  | nil => exact ⟨rfl, rfl⟩
  | cons g gs ih =>
    have hg := runChunks_group st g (h g (List.mem_cons_self _ _))
    have hgs := fun s => ih s fun x hx => h x (List.mem_cons_of_mem _ hx)
    have hc := runChunks_congr (onStderrData st (unlines g)).1 (runChunks st g).1
      gs.flatten hg.2.symm
    rw [List.map_cons, runChunks_cons, List.flatten_cons, runChunks_append, hg.1,
      (hgs _).1, (hgs _).2, hc.1, hc.2]
    exact ⟨rfl, rfl⟩

theorem splitLines_ne_nil (us : List Nat) : splitLines us ≠ [] := by
  cases us with
  | nil => simp [splitLines]
  | cons u us =>
    rw [splitLines]
    cases splitLines us with
    | nil => simp
    | cons l ls => simp only []; split_ifs <;> simp

theorem splitLines_line (l rest : List Nat) (h : 10 ∉ l) :
    splitLines (l ++ 10 :: rest) = l :: splitLines rest := by
  induction l with
  | nil =>
    rw [List.nil_append, splitLines]
    cases hs : splitLines rest with
    | nil => exact absurd hs (splitLines_ne_nil rest)
    | cons x xs => simp
  | cons u l ih =>
    have hu : u ≠ 10 := fun hu => h (by simp [hu])
    have hl : 10 ∉ l := fun hl => h (List.mem_cons_of_mem _ hl)
    rw [List.cons_append, splitLines, ih hl]
    simp [hu]

theorem splitLines_unlines (ls : List (List Nat)) (h : ∀ l ∈ ls, 10 ∉ l) :
    splitLines (unlines ls) = ls ++ [[]] := by
  induction ls with
  | nil => rfl
  | cons l ls ih =>
    rw [unlines_cons, splitLines_line _ _ (h l (List.mem_cons_self _ _)),
      ih fun x hx => h x (List.mem_cons_of_mem _ hx)]
    rfl

theorem flatten_map_unlines (groups : List (List (List Nat))) :
    (groups.map unlines).flatten = unlines groups.flatten := by
  induction groups with
  | nil => rfl
  | cons g gs ih => rw [List.map_cons, List.flatten_cons, List.flatten_cons, unlines_append, ih]

theorem length_runChunks (st : ProgressState) (chunks : List (List Nat)) :
    (runChunks st chunks).2.length ≤ chunks.length := by
  induction chunks generalizing st with
  | nil => exact Nat.le_refl 0
  | cons c cs ih =>
    rw [runChunks_cons, List.length_append, List.length_cons]
    have := ih (onStderrData st c).1
    have h2 : (onStderrData st c).2.toList.length ≤ 1 := by
      cases (onStderrData st c).2 <;> simp
    omega

/-- The calls of `onProgress` for a sequence of chunks are the reports of `runChunks`. -/
theorem foldl_childStep_stderr (job : Job) (o : EncodeOptions) (inv : Invocation)
    (chunks : List (List Nat)) (hfn : o.onProgress = .function) :
    ((chunks.map ChildEvent.stderrData).foldl (childStep job o) inv).reported
      = inv.reported ++ (runChunks inv.progress chunks).2.map (fun p => (job, p)) ∧
    ((chunks.map ChildEvent.stderrData).foldl (childStep job o) inv).progress
      = (runChunks inv.progress chunks).1 := by
  induction chunks generalizing inv with
  | nil => exact ⟨by simp [runChunks], rfl⟩
  | cons c cs ih =>
    rw [List.map_cons, List.foldl_cons, runChunks_cons]
    have h := ih (childStep job o inv (.stderrData c))
    have hp : (childStep job o inv (.stderrData c)).progress = (onStderrData inv.progress c).1 :=
      rfl
    have hr : (childStep job o inv (.stderrData c)).reported
        = inv.reported ++ (onStderrData inv.progress c).2.toList.map (fun p => (job, p)) := by
      show inv.reported ++ progressCalls o job (onStderrData inv.progress c).2 = _
      unfold progressCalls
      cases (onStderrData inv.progress c).2 <;> simp [hfn]
    rw [hp, hr] at h
    rw [h.1, h.2]
    refine ⟨?_, rfl⟩
    simp only [List.map_append, List.append_assoc]

theorem specReportsByLine_unlines (ls : List (List Nat)) (h : ∀ l ∈ ls, 10 ∉ l) :
    specReportsByLine (unlines ls) = (runChunks ProgressState.initial ls).2 := by
  unfold specReportsByLine
  rw [splitLines_unlines ls h, runChunks_append]
  have hq := runChunks_quiet (runChunks ProgressState.initial ls).1 [[]] (by decide)
  simp only [hq.1, List.append_nil]

/-- C11, as the code has it. The handler consumes each chunk as one text. For every
diagnostic text whose lines end with a line feed and every cutting of it into chunks
that end at line ends and hold at most one line that matches a pattern, the percentages
reported to `onProgress` are those of consuming the text one line at a time. For every
cutting, a chunk yields at most one report. -/
theorem chunks_refine_lines (job : Job) (o : EncodeOptions)
    (groups : List (List (List Nat))) (hfn : o.onProgress = .function)
    (hone : ∀ g ∈ groups, loudLines g ≤ 1) (hlf : ∀ g ∈ groups, ∀ l ∈ g, 10 ∉ l) :
    (((groups.map unlines).map ChildEvent.stderrData).foldl (childStep job o)
        (Invocation.start .pending)).reported
      = (specReportsByLine (groups.map unlines).flatten).map (fun p => (job, p)) ∧
    ∀ (st : ProgressState) (chunks : List (List Nat)),
      (runChunks st chunks).2.length ≤ chunks.length := by
  refine ⟨?_, length_runChunks⟩
  rw [(foldl_childStep_stderr job o _ _ hfn).1, flatten_map_unlines,
    specReportsByLine_unlines, (runChunks_groups _ groups hone).1]
  · rfl
  · intro l hl
    obtain ⟨g, hg, hlg⟩ := List.mem_flatten.1 hl
    exact hlf g hg l hlg

/-- Three chunks of whole lines report 10 and 20, as the five lines do one at a time. -/
theorem chunks_refine_lines_witness :
    (((sampleGroups.map unlines).map ChildEvent.stderrData).foldl
        (childStep sampleJob progressOptions) (Invocation.start .pending)).reported
      = (specReportsByLine (sampleGroups.map unlines).flatten).map (fun p => (sampleJob, p)) ∧
    specReportsByLine (sampleGroups.map unlines).flatten = [JsNum.ofNat 10, JsNum.ofNat 20] :=
  ⟨(chunks_refine_lines sampleJob progressOptions sampleGroups rfl (by decide!) (by decide!)).1,
   by decide!⟩

/-- C11, counterexample. The text `shortText` reports 10 when it is consumed one line at
a time, and nothing when the chunk boundary falls inside the progress marker; the text
`longText` reports 10 and 20 line by line, and only 10 when one chunk holds its two
progress lines. -/
theorem chunks_change_reports :
    splitMarkerChunks.flatten = shortText ∧
    specReportsByLine shortText = [JsNum.ofNat 10] ∧
    (runChunks ProgressState.initial splitMarkerChunks).2 = [] ∧
    twoLineChunks.flatten = longText ∧
    specReportsByLine longText = [JsNum.ofNat 10, JsNum.ofNat 20] ∧
    (runChunks ProgressState.initial twoLineChunks).2 = [JsNum.ofNat 10] := by
  decide!

/-! ## The range of the reported percentage -/

theorem le_bitLenAux (fuel n acc : Nat) : acc ≤ bitLenAux fuel n acc := by
  induction fuel generalizing n acc with
  | zero => simp [bitLenAux]
  | succ fuel ih =>
    unfold bitLenAux
    split_ifs
    · exact le_refl _
    · exact Nat.le_trans (Nat.le_succ _) (ih _ _)

theorem lt_bitLenAux (fuel n acc k : Nat) (hf : n ≤ fuel) (h : 2 ^ k ≤ n) :
    acc + k < bitLenAux fuel n acc := by
  induction fuel generalizing n acc k with
  | zero =>
    have : 0 < 2 ^ k := Nat.two_pow_pos k
    omega
  | succ fuel ih =>
    have hpos : 0 < 2 ^ k := Nat.two_pow_pos k
    unfold bitLenAux
    rw [if_neg (by omega)]
    cases k with
    | zero => exact Nat.lt_of_lt_of_le (by omega) (le_bitLenAux fuel (n / 2) (acc + 1))
    | succ k =>
      have h2 : 2 ^ k ≤ n / 2 := by
        rw [Nat.le_div_iff_mul_le (by norm_num)]
        rw [pow_succ] at h
        exact h
      have h3 : n / 2 ≤ fuel := by omega
      have := ih (n / 2) (acc + 1) k h3 h2
      omega

/-- A number that reaches `2^k` has more than `k` binary digits. -/
theorem lt_bitLen (n k : Nat) (h : 2 ^ k ≤ n) : k < bitLen n := by
  have := lt_bitLenAux n n 0 k (le_refl _) h
  simpa [bitLen] using this

namespace JsNum

theorem roundHalfEven_bounds (a b : Nat) :
    a / b ≤ roundHalfEven a b ∧ roundHalfEven a b ≤ a / b + 1 := by
  unfold roundHalfEven
  simp only []
  split_ifs <;> omega

/-- The result of a rounding is `Infinity` or the finite value of its definition. -/
theorem roundRatio_spec (a b : Nat) (p : Nat → Prop)
    (h : p (roundHalfEven a (b * 2 ^ (bitLen (a / b) - 53)) * 2 ^ (bitLen (a / b) - 53))) :
    roundRatio a b = inf ∨ ∃ k, roundRatio a b = fin k ∧ k < 2 ^ 2098 ∧ p k := by
  unfold roundRatio
  simp only []
  split_ifs with hk
  · exact Or.inr ⟨_, rfl, hk, h⟩
  · exact Or.inl rfl

/-- A ratio of at least one unit is rounded to a positive value. -/
theorem roundRatio_pos (a b : Nat) (hb : 0 < b) (hab : b ≤ a) :
    roundRatio a b = inf ∨ ∃ k, roundRatio a b = fin k ∧ k < 2 ^ 2098 ∧ 0 < k := by
  apply roundRatio_spec a b (fun k => 0 < k)
  have hq1 : 1 ≤ a / b := (Nat.one_le_div_iff hb).2 hab
  have hj : 2 ^ (bitLen (a / b) - 53) ≤ a / b := by
    by_cases h0 : bitLen (a / b) - 53 = 0
    · rw [h0]; exact hq1
    · by_contra hlt
      have := bitLen_le (a / b) (bitLen (a / b) - 53) (Nat.lt_of_not_le hlt)
      omega
  have hpow : 0 < 2 ^ (bitLen (a / b) - 53) := Nat.two_pow_pos _
  have hd : b * 2 ^ (bitLen (a / b) - 53) ≤ a :=
    Nat.le_trans (Nat.mul_le_mul_left b hj) (Nat.mul_div_le a b)
  have hr := roundHalfEven_bounds a (b * 2 ^ (bitLen (a / b) - 53))
  have hq2 : 1 ≤ a / (b * 2 ^ (bitLen (a / b) - 53)) :=
    (Nat.one_le_div_iff (Nat.mul_pos hb hpow)).2 hd
  exact Nat.mul_pos (by omega) hpow

theorem two_pow_2098 : 2 ^ 2098 = 2 ^ 1024 * one := by
  unfold one
  rw [← pow_add]

/-- A ratio that is a natural number is rounded to a natural number or to `Infinity`. -/
theorem roundRatio_whole (n b : Nat) (hb : 0 < b) :
    roundRatio (n * one * b) b = inf
      ∨ ∃ m, roundRatio (n * one * b) b = fin (m * one) ∧ m * one < 2 ^ 2098 := by
  by_cases hn : n < 2 ^ 53
  · refine Or.inr ⟨n, roundRatio_exact _ b n hb rfl hn, ?_⟩
    have h1 : n * one < 2 ^ 53 * one := Nat.mul_lt_mul_of_lt_of_le hn (le_refl _) one_pos
    have h2 : 2 ^ 53 * one ≤ 2 ^ 1024 * one :=
      Nat.mul_le_mul_right _ (two_pow_mono 53 1024 (by decide))
    rw [two_pow_2098]
    exact Nat.lt_of_lt_of_le h1 h2
  · have hq : n * one * b / b = n * one := Nat.mul_div_cancel _ hb
    have h1127 : 2 ^ 1127 ≤ n * one := by
      have e : 2 ^ 1127 = 2 ^ 53 * one := by
        unfold one
        rw [← pow_add]
      rw [e]
      exact Nat.mul_le_mul_right _ (Nat.le_of_not_lt hn)
    have hL := lt_bitLen _ 1127 h1127
    obtain ⟨i, hi⟩ : ∃ i, bitLen (n * one) - 53 = i + 1074 :=
      ⟨bitLen (n * one) - 53 - 1074, by omega⟩
    rcases roundRatio_spec (n * one * b) b (fun k => k % one = 0) (by
        rw [hq, hi, pow_add]
        have e : (2 : Nat) ^ 1074 = one := rfl
        rw [e, ← Nat.mul_assoc]
        exact Nat.mul_mod_left _ _) with h | ⟨k, hk, hlt, hdiv⟩
    · exact Or.inl h
    · have hk2 : k / one * one = k := Nat.div_mul_cancel (Nat.dvd_of_mod_eq_zero hdiv)
      exact Or.inr ⟨k / one, by rw [hk2]; exact hk, by rw [hk2]; exact hlt⟩

theorem isWhole_fin (k : Nat) (h : isWhole (fin k) = true) :
    ∃ m, k = m * one ∧ m < 2 ^ 1024 := by
  simp only [isWhole, Bool.and_eq_true, decide_eq_true_eq] at h
  have hk : k / one * one = k := Nat.div_mul_cancel (Nat.dvd_of_mod_eq_zero h.1)
  refine ⟨k / one, hk.symm, ?_⟩
  have h2 := h.2
  rw [← hk, two_pow_2098] at h2
  exact Nat.lt_of_mul_lt_mul_right h2

theorem isWhole_roundRatio (n b : Nat) (hb : 0 < b) :
    isWhole (roundRatio (n * one * b) b) = true := by
  rcases roundRatio_whole n b hb with h | ⟨m, h, hlt⟩
  · rw [h]; rfl
  · rw [h]
    simp only [isWhole, Bool.and_eq_true, decide_eq_true_eq]
    exact ⟨Nat.mul_mod_left _ _, hlt⟩

theorem isWhole_ofNat (n : Nat) : isWhole (ofNat n) = true := by
  have := isWhole_roundRatio n 1 Nat.one_pos
  rwa [Nat.mul_one] at this

theorem isWhole_add (x y : JsNum) (hx : isWhole x = true) (hy : isWhole y = true) :
    isWhole (add x y) = true := by
  cases x with
  | fin a =>
    cases y with
    | fin b =>
      obtain ⟨m, hm, -⟩ := isWhole_fin a hx
      obtain ⟨n, hn, -⟩ := isWhole_fin b hy
      have e : a + b = (m + n) * one * 1 := by rw [hm, hn]; ring
      rw [add_fin, e]
      exact isWhole_roundRatio _ 1 Nat.one_pos
    | inf => rfl
    | nan => rfl
  | inf => cases y <;> rfl
  | nan => cases y <;> rfl

theorem isWhole_mul (x y : JsNum) (hx : isWhole x = true) (hy : isWhole y = true) :
    isWhole (mul x y) = true := by
  cases x with
  | fin a =>
    cases y with
    | fin b =>
      obtain ⟨m, hm, -⟩ := isWhole_fin a hx
      obtain ⟨n, hn, -⟩ := isWhole_fin b hy
      have e : a * b = (m * n) * one * one := by rw [hm, hn]; ring
      rw [mul_fin, e]
      exact isWhole_roundRatio _ one one_pos
    | inf =>
      show isWhole (if a = 0 then nan else inf) = true
      split_ifs <;> rfl
    | nan => rfl
  | inf =>
    cases y with
    | fin b =>
      show isWhole (if b = 0 then nan else inf) = true
      split_ifs <;> rfl
    | inf => rfl
    | nan => rfl
  | nan => cases y <;> rfl

end JsNum

theorem isWhole_parseInt (g : Option (List Nat)) : (parseInt g).isWhole = true := by
  cases g with
  | none => rfl
  | some us =>
    unfold parseInt
    simp only []
    split_ifs
    · rfl
    · exact JsNum.isWhole_ofNat _

theorem isWhole_convertToMilliseconds (h m s : JsNum) (hh : h.isWhole = true)
    (hm : m.isWhole = true) (hs : s.isWhole = true) :
    (convertToMilliseconds h m s).isWhole = true := by
  unfold convertToMilliseconds
  exact JsNum.isWhole_mul _ _
    (JsNum.isWhole_add _ _
      (JsNum.isWhole_add _ _
        (JsNum.isWhole_mul _ _ (JsNum.isWhole_mul _ _ hh (JsNum.isWhole_ofNat 60))
          (JsNum.isWhole_ofNat 60))
        (JsNum.isWhole_mul _ _ hm (JsNum.isWhole_ofNat 60)))
      hs)
    (JsNum.isWhole_ofNat 1000)

/-- Every duration that the parser returns is a whole number of milliseconds,
`Infinity` or `NaN`. -/
theorem isWhole_getDuration (regex : Regex) (data : List Nat) :
    (getDuration regex data).isWhole = true := by
  unfold getDuration
  cases regexMatch regex data with
  | none =>
    simp only [JsNum.isWhole, Bool.and_eq_true, decide_eq_true_eq]
    exact ⟨Nat.zero_mod _, Nat.two_pow_pos _⟩
  | some caps =>
    exact isWhole_convertToMilliseconds _ _ _ (isWhole_parseInt _) (isWhole_parseInt _)
      (isWhole_parseInt _)

theorem JsNum.div_fin (x y : Nat) (hy : y ≠ 0) :
    JsNum.div (.fin x) (.fin y) = JsNum.roundRatio (x * JsNum.one) y := by
  simp [JsNum.div, hy]

theorem JsNum.ceil_fin (x : Nat) :
    JsNum.ceil (.fin x) = .fin ((x + (JsNum.one - 1)) / JsNum.one * JsNum.one) := rfl

theorem JsNum.ceil_inf_hundred : (JsNum.inf.mul (JsNum.ofNat 100)).ceil = .inf := by
  decide!

theorem JsNum.isPositive_fin (k : Nat) (h : (JsNum.fin k).isPositive = true) : 0 < k := by
  simpa [JsNum.isPositive] using h

/-- With a finite total duration and a positive elapsed time, both whole numbers of
milliseconds, the percentage is a positive integer or `Infinity`. -/
theorem percentage_ge_one (cur total : JsNum) (hc : cur.isWhole = true)
    (ht : total.isWhole = true) (hcp : cur.isPositive = true) (htp : total.isPositive = true)
    (hfin : total ≠ .inf) :
    percentage cur total = .inf
      ∨ ∃ n, 1 ≤ n ∧ percentage cur total = .fin (n * JsNum.one) := by
  have hone := JsNum.one_pos
  cases total with
  | inf => exact absurd rfl hfin
  | nan => cases htp
  | fin kt =>
    have hktpos := JsNum.isPositive_fin kt htp
    obtain ⟨t, hkt, htb⟩ := JsNum.isWhole_fin kt ht
    cases cur with
    | nan => cases hcp
    | inf => exact Or.inl JsNum.ceil_inf_hundred
    | fin kc =>
      have hkcpos := JsNum.isPositive_fin kc hcp
      obtain ⟨c, hkc, -⟩ := JsNum.isWhole_fin kc hc
      have hc1 : 1 ≤ c := by
        rw [hkc] at hkcpos
        exact Nat.pos_of_mul_pos_right hkcpos
      have hle : kt ≤ kc * JsNum.one := by
        have h1 : t ≤ JsNum.one :=
          Nat.le_trans (Nat.le_of_lt htb) (JsNum.two_pow_mono 1024 1074 (by decide))
        have h2 : JsNum.one ≤ kc := by
          rw [hkc]
          exact Nat.le_mul_of_pos_left _ hc1
        rw [hkt]
        exact Nat.mul_le_mul h1 h2 |>.trans (by rw [Nat.mul_comm])
      unfold percentage
      rw [JsNum.div_fin _ _ (Nat.pos_iff_ne_zero.1 hktpos)]
      rcases JsNum.roundRatio_pos (kc * JsNum.one) kt hktpos hle with hq | ⟨kq, hq, -, hqpos⟩
      · rw [hq]
        exact Or.inl JsNum.ceil_inf_hundred
      · rw [hq, JsNum.ofNat_eq 100 (by norm_num), JsNum.mul_fin]
        have hle2 : JsNum.one ≤ kq * (100 * JsNum.one) := by
          have : 1 ≤ kq * 100 := Nat.mul_pos hqpos (by norm_num)
          calc JsNum.one = 1 * JsNum.one := (Nat.one_mul _).symm
            _ ≤ kq * 100 * JsNum.one := Nat.mul_le_mul_right _ this
            _ = kq * (100 * JsNum.one) := Nat.mul_assoc _ _ _
        rcases JsNum.roundRatio_pos (kq * (100 * JsNum.one)) JsNum.one hone hle2
          with hp | ⟨kp, hp, -, hppos⟩
        · rw [hp]
          exact Or.inl rfl
        · rw [hp, JsNum.ceil_fin]
          exact Or.inr ⟨(kp + (JsNum.one - 1)) / JsNum.one,
            (Nat.one_le_div_iff hone).2 (by omega), rfl⟩

/-- No bound is applied: with a total of 1000 ms, `N` seconds give `100 * N`. -/
theorem percentage_multiple (N : Nat) (hN : N * 1000 < 2 ^ 53) :
    percentage (JsNum.ofNat (N * 1000)) (JsNum.ofNat 1000) = JsNum.ofNat (N * 100) := by
  have hone := JsNum.one_pos
  have h1 : N < 2 ^ 53 := by omega
  have h2 : N * 100 < 2 ^ 53 := by omega
  unfold percentage
  rw [JsNum.ofNat_eq _ hN, JsNum.ofNat_eq 1000 (by norm_num), JsNum.ofNat_eq 100 (by norm_num),
    JsNum.ofNat_eq _ h2,
    JsNum.div_fin _ _ (Nat.pos_iff_ne_zero.1 (Nat.mul_pos (by norm_num) hone)),
    JsNum.roundRatio_exact _ (1000 * JsNum.one) N (Nat.mul_pos (by norm_num) hone) (by ring) h1,
    JsNum.mul_fin,
    JsNum.roundRatio_exact _ JsNum.one (N * 100) hone (by ring) h2, JsNum.ceil_fin]
  have h3 : (N * 100 * JsNum.one + (JsNum.one - 1)) / JsNum.one = N * 100 := by
    rw [Nat.add_comm, Nat.add_mul_div_right _ _ hone,
      Nat.div_eq_of_lt (Nat.sub_lt hone Nat.one_pos), Nat.zero_add]
  rw [h3]

theorem runChunks_total_of_positive (st : ProgressState) (chunks : List (List Nat))
    (h : st.totalDuration.isPositive = true) :
    (runChunks st chunks).1.totalDuration = st.totalDuration := by
  induction chunks generalizing st with
  | nil => rfl
  | cons c cs ih =>
    have h1 := onStderrData_total_of_positive st c h
    show (runChunks (onStderrData st c).1 cs).1.totalDuration = st.totalDuration
    rw [ih (onStderrData st c).1 (by rw [h1]; exact h), h1]

theorem isWhole_totalDuration (st : ProgressState) (data : List Nat)
    (h : st.totalDuration.isWhole = true) :
    (onStderrData st data).1.totalDuration.isWhole = true := by
  rw [onStderrData_state]
  simp only []
  split_ifs
  · exact isWhole_getDuration _ _
  · exact h

/-- From a state whose total duration is a whole number, a run that ends with a finite
total duration reports only positive integers and `Infinity`. -/
theorem runChunks_reports (chunks : List (List Nat)) (st : ProgressState)
    (hw : st.totalDuration.isWhole = true)
    (hfin : (runChunks st chunks).1.totalDuration ≠ .inf) :
    ∀ pct ∈ (runChunks st chunks).2,
      pct = .inf ∨ ∃ n, 1 ≤ n ∧ pct = .fin (n * JsNum.one) := by
  induction chunks generalizing st with
  | nil =>
    intro pct hp
    cases hp
  | cons c cs ih =>
    intro pct hp
    rw [runChunks_cons] at hp hfin
    have hw2 := isWhole_totalDuration st c hw
    rcases List.mem_append.1 hp with h | h
    · rw [onStderrData_report] at h
      by_cases hpos : ((onStderrData st c).1.totalDuration.isPositive
          && (onStderrData st c).1.currentProgress.isPositive) = true
      · rw [if_pos hpos] at h
        have hpct : pct = percentage (onStderrData st c).1.currentProgress
            (onStderrData st c).1.totalDuration := by simpa using h
        rw [Bool.and_eq_true] at hpos
        have hlatch := runChunks_total_of_positive (onStderrData st c).1 cs hpos.1
        have hcw : (onStderrData st c).1.currentProgress.isWhole = true := by
          rw [onStderrData_state]
          exact isWhole_getDuration _ _
        rw [hpct]
        exact percentage_ge_one _ _ hcw hw2 hpos.2 hpos.1 (by rw [← hlatch]; exact hfin)
      · rw [if_neg hpos] at h
        cases h
    · exact ih (onStderrData st c).1 hw2 hfin pct h

/-- C18, as the code has it. For every sequence of chunks consumed from the initial
state that leaves a finite total duration, every reported percentage is an integer `n`
with `1 ≤ n`, or `Infinity`: never 0 and never `NaN`. No upper bound is applied: with a
total of 1000 ms, an elapsed time of `N` seconds gives `100 * N`, which exceeds 100 from
`N = 2` on. -/
theorem reported_percentage_range (chunks : List (List Nat)) (pct : JsNum)
    (hfin : (runChunks ProgressState.initial chunks).1.totalDuration ≠ .inf)
    (hp : pct ∈ (runChunks ProgressState.initial chunks).2) :
    (pct = .inf ∨ ∃ n, 1 ≤ n ∧ pct = .fin (n * JsNum.one)) ∧
    ∀ N, N * 1000 < 2 ^ 53 →
      percentage (JsNum.ofNat (N * 1000)) (JsNum.ofNat 1000) = JsNum.ofNat (N * 100) :=
  ⟨runChunks_reports chunks ProgressState.initial (by decide!) hfin pct hp, percentage_multiple⟩

/-- A header of ten seconds and a progress line of twenty seconds report 200. -/
theorem reported_percentage_range_witness :
    (runChunks ProgressState.initial overrunChunks).2 = [JsNum.ofNat 200] ∧
    ((JsNum.ofNat 200 = .inf ∨ ∃ n, 1 ≤ n ∧ JsNum.ofNat 200 = .fin (n * JsNum.one)) ∧
      ∀ N, N * 1000 < 2 ^ 53 →
        percentage (JsNum.ofNat (N * 1000)) (JsNum.ofNat 1000) = JsNum.ofNat (N * 100)) :=
  ⟨by decide!,
   reported_percentage_range overrunChunks (JsNum.ofNat 200) (by decide!) (by decide!)⟩

/-- C18, counterexample. A header whose hours field has 310 digits makes the total
duration `Infinity`; the chunk `time=0:00:10.00 bitrate=` then reports
`Math.ceil(10000 / Infinity * 100)`, which is 0. After a header of ten seconds, a
progress line whose hours field has 310 digits reports `Infinity`, which is no integer. -/
theorem reported_percentage_zero :
    runChunks ProgressState.initial [hugeHeaderLine, utf16 "time=0:00:10.00 bitrate="]
      = (⟨.inf, JsNum.ofNat 10000⟩, [JsNum.fin 0]) ∧
    (runChunks ProgressState.initial
        [utf16 "Duration: 0:00:10.00, start:", hugeProgressLine]).2 = [JsNum.inf] := by
  decide!

end Nexrender
